import Mathlib

/-!
# Role-link building of a casbin `Assertion` (`model/assertion.go`)

A shallow embedding of `Assertion.buildRoleLinks`, `Assertion.buildIncrementalRoleLinks`,
`Assertion.initPriorityIndex` and `Assertion.copy`.

* Go slices are lists (their contents); a Go `map[string]int` is an association list with
  distinct keys (`AList`).
* The role manager is an external, stateful capability: each of its three operations is a
  transition on a state `σ` that also yields the returned `error` (`none` is Go's `nil`).
* A Go function that mutates its receiver returns the new receiver; a run-time index panic is
  an explicit outcome.
* For questions of shared storage `copy` is embedded a second time, on slice and map
  references in an explicit store (`copyRef`); `copyRef_refines_copy` relates the two.
  So are the build functions (`buildRoleLinksRef`, `buildIncrementalRoleLinksRef`), whose
  calls hand the capability the slice `rule[2:]` itself; `buildRoleLinksRef_refines` and
  `buildIncrementalRoleLinksRef_refines` relate them to the embedding on values.
-/

namespace Casbin

/-- A Go `error` value, as made by `errors.New`: its message, the only content such a value
has.  The identity of the value is not modelled (two calls of `errors.New` give two values
that `==` tells apart even when their messages are equal). -/
structure GoError where
  msg : String
deriving DecidableEq, Repr

/-- The value of `errors.New("the number of \"_\" in role definition should be at least 2")`. -/
def errRoleDefinition : GoError :=
  ⟨"the number of \"_\" in role definition should be at least 2"⟩

/-- The value of `errors.New("grouping policy elements do not meet role definition")`. -/
def errGroupingPolicy : GoError :=
  ⟨"grouping policy elements do not meet role definition"⟩

/-- Modelled from the spec: the `PolicyOp` type and its constants `PolicyAdd` and
`PolicyRemove` are declared outside `assertion.go`; the spec names the two operation tags Add
and Remove.  `other` stands for any tag value that is neither constant: the `switch` of
`buildIncrementalRoleLinks` has no default branch. -/
inductive PolicyOp where
  | PolicyAdd
  | PolicyRemove
  | other (tag : Int)
deriving DecidableEq, Repr

/-- Modelled from the spec: the `rbac.RoleManager` interface is declared outside
`assertion.go`; the spec lists the three operations this code requires of it, each taking a
subject, a role and a variadic list of domain qualifiers and returning success or failure.
The capability is stateful: an operation maps its state to the returned error and a new state
(the state may change also when the operation fails). -/
structure RoleManager (σ : Type) where
  AddLink : String → String → List String → σ → Option GoError × σ
  DeleteLink : String → String → List String → σ → Option GoError × σ
  BuildRelationship : String → String → List String → σ → Option GoError × σ

/-- The `Assertion` struct.  `RM` and `logger` are interface values: `none` is the unset
(`nil`) interface.  `Logger` is the type of `log.Logger` values, declared outside this file. -/
structure Assertion (σ : Type) (Logger : Type) where
  Key : String
  Value : String
  Tokens : List String
  Policy : List (List String)
  PolicyMap : AList (fun _ : String => Int)
  RM : Option (RoleManager σ)
  logger : Option Logger
  priorityIndex : Int

/-- What a call of one of the build functions does: return `nil`, return an error, or stop in
an index-out-of-range run-time panic. -/
inductive Outcome where
  | nil
  | error (e : GoError)
  | indexPanic
deriving DecidableEq, Repr

/-- The value of `strings.Count(s, "_")`: the number of occurrences of the one-byte string
`"_"` in `s`. -/
def countUnderscore (s : String) : Nat :=
  s.toList.count '_'

/-- The argument list `rule[0], rule[1], rule[2:]...` of a capability call; `none` when
evaluating it panics (fewer than two fields). -/
def linkArgs (rule : List String) : Option (String × String × List String) :=
  match rule with
  | a :: b :: rest => some (a, b, rest)
  | _ => none

variable {σ Logger : Type}

/-- The first loop of `buildIncrementalRoleLinks` (lines 46-65), from state `s` of the
capability.  `none` in the first component: the loop ran to its end; `some o`: the function
returned (or panicked) inside the loop with outcome `o`. -/
def incrementalLinkLoop (rm : RoleManager σ) (count : Nat) (op : PolicyOp) :
    List (List String) → σ → Option Outcome × σ
  | [], s => (none, s)
  | rule :: rules, s =>
    if rule.length < count then
      (some (Outcome.error errGroupingPolicy), s)
    else
      let rule := if rule.length > count then rule.take count else rule
      match op with
      | PolicyOp.PolicyAdd =>
        match linkArgs rule with
        | none => (some Outcome.indexPanic, s)
        | some (a, b, dom) =>
          match rm.AddLink a b dom s with
          | (some err, s1) => (some (Outcome.error err), s1)
          | (none, s1) => incrementalLinkLoop rm count op rules s1
      | PolicyOp.PolicyRemove =>
        match linkArgs rule with
        | none => (some Outcome.indexPanic, s)
        | some (a, b, dom) =>
          match rm.DeleteLink a b dom s with
          | (some err, s1) => (some (Outcome.error err), s1)
          | (none, s1) => incrementalLinkLoop rm count op rules s1
      | PolicyOp.other _ => incrementalLinkLoop rm count op rules s

/-- The loop over `rm.BuildRelationship(rule[0], rule[1], rule[2:]...)` (lines 68-73 and
98-103): the loop variable is the tuple as stored. -/
def relationshipLoop (rm : RoleManager σ) : List (List String) → σ → Option Outcome × σ
  | [], s => (none, s)
  | rule :: rules, s =>
    match linkArgs rule with
    | none => (some Outcome.indexPanic, s)
    | some (a, b, dom) =>
      match rm.BuildRelationship a b dom s with
      | (some err, s1) => (some (Outcome.error err), s1)
      | (none, s1) => relationshipLoop rm rules s1

/-- The method `Assertion.buildIncrementalRoleLinks(rm, op, rules)`, run with the capability
in state `s`: the outcome, the receiver after the call, the capability's state after it. -/
def buildIncrementalRoleLinks (ast : Assertion σ Logger) (rm : RoleManager σ) (op : PolicyOp)
    (rules : List (List String)) (s : σ) : Outcome × Assertion σ Logger × σ :=
  let ast := { ast with RM := some rm }
  let count := countUnderscore ast.Value
  if count < 2 then
    (Outcome.error errRoleDefinition, ast, s)
  else
    match incrementalLinkLoop rm count op rules s with
    | (some o, s1) => (o, ast, s1)
    | (none, s1) =>
      if op = PolicyOp.PolicyAdd then
        match relationshipLoop rm rules s1 with
        | (some o, s2) => (o, ast, s2)
        | (none, s2) => (Outcome.nil, ast, s2)
      else
        (Outcome.nil, ast, s1)

/-- The first loop of `buildRoleLinks` (lines 85-96). -/
def linkLoop (rm : RoleManager σ) (count : Nat) : List (List String) → σ → Option Outcome × σ
  | [], s => (none, s)
  | rule :: rules, s =>
    if rule.length < count then
      (some (Outcome.error errGroupingPolicy), s)
    else
      let rule := if rule.length > count then rule.take count else rule
      match linkArgs rule with
      | none => (some Outcome.indexPanic, s)
      | some (a, b, dom) =>
        match rm.AddLink a b dom s with
        | (some err, s1) => (some (Outcome.error err), s1)
        | (none, s1) => linkLoop rm count rules s1

/-- The method `Assertion.buildRoleLinks(rm)`, run with the capability in state `s`.  The
calls go through `ast.RM`, which the first statement has set to `rm`. -/
def buildRoleLinks (ast : Assertion σ Logger) (rm : RoleManager σ) (s : σ) :
    Outcome × Assertion σ Logger × σ :=
  let ast := { ast with RM := some rm }
  let count := countUnderscore ast.Value
  if count < 2 then
    (Outcome.error errRoleDefinition, ast, s)
  else
    match linkLoop rm count ast.Policy s with
    | (some o, s1) => (o, ast, s1)
    | (none, s1) =>
      match relationshipLoop rm ast.Policy s1 with
      | (some o, s2) => (o, ast, s2)
      | (none, s2) => (Outcome.nil, ast, s2)

/-- The method `Assertion.initPriorityIndex()`. -/
def initPriorityIndex (ast : Assertion σ Logger) : Assertion σ Logger :=
  { ast with priorityIndex := -1 }

/-- The method `Assertion.setLogger(logger)`. -/
def setLogger (ast : Assertion σ Logger) (logger : Option Logger) : Assertion σ Logger :=
  { ast with logger := logger }

/-- The loop `for k, v := range ast.PolicyMap { policyMap[k] = v }` over the entries of the
map, into the map built so far. -/
def copyPolicyMap (entries : List (Sigma fun _ : String => Int))
    (policyMap : AList (fun _ : String => Int)) : AList (fun _ : String => Int) :=
  entries.foldl (fun m kv => m.insert kv.1 kv.2) policyMap

/-- The method `Assertion.copy()`: the new Assertion (the receiver is not assigned to).
`append([]string(nil), xs...)` yields a fresh slice with the elements of `xs`. -/
def copy (ast : Assertion σ Logger) : Assertion σ Logger :=
  let tokens := ([] : List String) ++ ast.Tokens
  let policy := ast.Policy.map (fun p => ([] : List String) ++ p)
  let policyMap := copyPolicyMap ast.PolicyMap.entries ∅
  { Key := ast.Key
    Value := ast.Value
    PolicyMap := policyMap
    Tokens := tokens
    Policy := policy
    RM := none
    logger := none
    priorityIndex := ast.priorityIndex }

/-! ## Observing the capability calls -/

/-- A call received by the capability. -/
inductive Call where
  | AddLink (name1 name2 : String) (domain : List String)
  | DeleteLink (name1 name2 : String) (domain : List String)
  | BuildRelationship (name1 name2 : String) (domain : List String)
deriving DecidableEq, Repr

/-- A call together with what the capability returned for it. -/
structure Event where
  call : Call
  response : Option GoError
deriving DecidableEq, Repr

/-- A recording double around a capability: it behaves as `rm` on the first component of the
state and appends every call it receives, with the answer `rm` gave, to the second. -/
def traced (rm : RoleManager σ) : RoleManager (σ × List Event) where
  AddLink a b dom := fun st =>
    let r := rm.AddLink a b dom st.1
    (r.1, (r.2, st.2 ++ [⟨Call.AddLink a b dom, r.1⟩]))
  DeleteLink a b dom := fun st =>
    let r := rm.DeleteLink a b dom st.1
    (r.1, (r.2, st.2 ++ [⟨Call.DeleteLink a b dom, r.1⟩]))
  BuildRelationship a b dom := fun st =>
    let r := rm.BuildRelationship a b dom st.1
    (r.1, (r.2, st.2 ++ [⟨Call.BuildRelationship a b dom, r.1⟩]))

/-- A capability without state that accepts every call. -/
def acceptAll : RoleManager Unit where
  AddLink _ _ _ := fun s => (none, s)
  DeleteLink _ _ _ := fun s => (none, s)
  BuildRelationship _ _ _ := fun s => (none, s)

/-- The capability `rm` accepts every call in every state. -/
def Accepts (rm : RoleManager σ) : Prop :=
  ∀ (a b : String) (dom : List String) (s : σ),
    (rm.AddLink a b dom s).1 = none ∧ (rm.DeleteLink a b dom s).1 = none ∧
      (rm.BuildRelationship a b dom s).1 = none

/-- The events a full rebuild produces: the calls `buildRoleLinks` makes on `rm` started in
state `s`, in order, each with its answer. -/
def fullTrace (ast : Assertion (σ × List Event) Logger) (rm : RoleManager σ) (s : σ) :
    List Event :=
  (buildRoleLinks ast (traced rm) (s, [])).2.2.2

/-- The outcome of a full rebuild observed through the recording double. -/
def fullOutcome (ast : Assertion (σ × List Event) Logger) (rm : RoleManager σ) (s : σ) :
    Outcome :=
  (buildRoleLinks ast (traced rm) (s, [])).1

/-- The events an incremental update produces. -/
def incrementalTrace (ast : Assertion (σ × List Event) Logger) (rm : RoleManager σ)
    (op : PolicyOp) (rules : List (List String)) (s : σ) : List Event :=
  (buildIncrementalRoleLinks ast (traced rm) op rules (s, [])).2.2.2

/-- The outcome of an incremental update observed through the recording double. -/
def incrementalOutcome (ast : Assertion (σ × List Event) Logger) (rm : RoleManager σ)
    (op : PolicyOp) (rules : List (List String)) (s : σ) : Outcome :=
  (buildIncrementalRoleLinks ast (traced rm) op rules (s, [])).1

/-- An Assertion holding only a definition and its tuples, bound to nothing. -/
def mkAssertion (value : String) (policy : List (List String)) :
    Assertion (σ × List Event) Unit :=
  { Key := "g", Value := value, Tokens := [], Policy := policy, PolicyMap := ∅,
    RM := none, logger := none, priorityIndex := 0 }

/-! ## The calls expected for a tuple -/

/-- The `AddLink` call for a tuple under arity `count`: subject field 0, role field 1, domain
qualifiers fields `2 .. count-1`. -/
def addLinkOf (count : Nat) (t : List String) : Call :=
  Call.AddLink (t.getD 0 "") (t.getD 1 "") ((t.take count).drop 2)

/-- The `DeleteLink` call for a tuple under arity `count`, with the same arguments. -/
def deleteLinkOf (count : Nat) (t : List String) : Call :=
  Call.DeleteLink (t.getD 0 "") (t.getD 1 "") ((t.take count).drop 2)

/-- The link call the first loop makes for a tuple: none for a tag that is neither constant. -/
def linkCallOf (op : PolicyOp) (count : Nat) (t : List String) : Option Call :=
  match op with
  | PolicyOp.PolicyAdd => some (addLinkOf count t)
  | PolicyOp.PolicyRemove => some (deleteLinkOf count t)
  | PolicyOp.other _ => none

/-- The `BuildRelationship` call the second loop makes for a tuple: subject field 0, role
field 1, and every field from index 2 on. -/
def relationshipOf (t : List String) : Call :=
  Call.BuildRelationship (t.getD 0 "") (t.getD 1 "") (t.drop 2)

/-- An event of an accepted call. -/
def accepted (c : Call) : Event := ⟨c, none⟩

/-- The response recorded in an event is the one `rm` gives to that call in some state. -/
def Answered (rm : RoleManager σ) (ev : Event) : Prop :=
  ∃ s : σ, ev.response =
    match ev.call with
    | Call.AddLink a b dom => (rm.AddLink a b dom s).1
    | Call.DeleteLink a b dom => (rm.DeleteLink a b dom s).1
    | Call.BuildRelationship a b dom => (rm.BuildRelationship a b dom s).1

/-- The events of the first loop over `rules`, by how the loop ended (`o`): it ran to its end,
it met a tuple that is too short, or a link call failed. -/
def LinkPhase (count : Nat) (op : PolicyOp) (rules : List (List String)) (o : Option Outcome)
    (evs : List Event) : Prop :=
  (o = none ∧ (∀ t ∈ rules, count ≤ t.length) ∧
      evs = (rules.filterMap (linkCallOf op count)).map accepted)
  ∨ (∃ pre t post, rules = pre ++ t :: post ∧ (∀ p ∈ pre, count ≤ p.length) ∧
      t.length < count ∧ o = some (Outcome.error errGroupingPolicy) ∧
      evs = (pre.filterMap (linkCallOf op count)).map accepted)
  ∨ (∃ pre t post c e, rules = pre ++ t :: post ∧ (∀ p ∈ pre, count ≤ p.length) ∧
      count ≤ t.length ∧ linkCallOf op count t = some c ∧ o = some (Outcome.error e) ∧
      evs = (pre.filterMap (linkCallOf op count)).map accepted ++ [⟨c, some e⟩])

/-- The events of the second loop over `rules`, by how the loop ended. -/
def RelationshipPhase (rules : List (List String)) (o : Option Outcome) (evs : List Event) :
    Prop :=
  (o = none ∧ evs = (rules.map relationshipOf).map accepted)
  ∨ (∃ pre t post e, rules = pre ++ t :: post ∧ o = some (Outcome.error e) ∧
      evs = (pre.map relationshipOf).map accepted ++ [⟨relationshipOf t, some e⟩])

/-- The accepted link calls of the tuples `l`, in order. -/
def linkEvents (count : Nat) (op : PolicyOp) (l : List (List String)) : List Event :=
  (l.filterMap (linkCallOf op count)).map accepted

/-- The accepted `BuildRelationship` calls of the tuples `l`, in order. -/
def relationshipEvents (l : List (List String)) : List Event :=
  (l.map relationshipOf).map accepted

/-- The four ways a build with arity `count ≥ 2` over `rules` can go, each with its outcome and
its events: success; a tuple that is too short; a failed link call; a failed
`BuildRelationship` call (only when links are added). -/
def RunShape (count : Nat) (op : PolicyOp) (rules : List (List String)) (out : Outcome)
    (tr : List Event) : Prop :=
  (out = Outcome.nil ∧ (∀ t ∈ rules, count ≤ t.length) ∧
      tr = linkEvents count op rules ++
        (if op = PolicyOp.PolicyAdd then relationshipEvents rules else []))
  ∨ (∃ pre t post, rules = pre ++ t :: post ∧ (∀ p ∈ pre, count ≤ p.length) ∧
      t.length < count ∧ out = Outcome.error errGroupingPolicy ∧ tr = linkEvents count op pre)
  ∨ (∃ pre t post c e, rules = pre ++ t :: post ∧ (∀ p ∈ pre, count ≤ p.length) ∧
      count ≤ t.length ∧ linkCallOf op count t = some c ∧ out = Outcome.error e ∧
      tr = linkEvents count op pre ++ [⟨c, some e⟩])
  ∨ (op = PolicyOp.PolicyAdd ∧ ∃ pre t post e, rules = pre ++ t :: post ∧
      (∀ p ∈ rules, count ≤ p.length) ∧ out = Outcome.error e ∧
      tr = linkEvents count op rules ++ relationshipEvents pre ++ [⟨relationshipOf t, some e⟩])

/-- Which of the three operations a call is. -/
inductive CallKind where
  | addLink
  | deleteLink
  | buildRelationship
deriving DecidableEq, Repr

/-- The operation of a call. -/
def Call.kind : Call → CallKind
  | Call.AddLink _ _ _ => CallKind.addLink
  | Call.DeleteLink _ _ _ => CallKind.deleteLink
  | Call.BuildRelationship _ _ _ => CallKind.buildRelationship

/-- The first argument of a call (the subject). -/
def Call.subject : Call → String
  | Call.AddLink a _ _ => a
  | Call.DeleteLink a _ _ => a
  | Call.BuildRelationship a _ _ => a

/-- The second argument of a call (the role). -/
def Call.role : Call → String
  | Call.AddLink _ b _ => b
  | Call.DeleteLink _ b _ => b
  | Call.BuildRelationship _ b _ => b

/-- The variadic arguments of a call (the domain qualifiers). -/
def Call.domain : Call → List String
  | Call.AddLink _ _ dom => dom
  | Call.DeleteLink _ _ dom => dom
  | Call.BuildRelationship _ _ dom => dom

/-- Operation, subject and role of a call. -/
def Call.head (c : Call) : CallKind × String × String :=
  (c.kind, c.subject, c.role)

/-- Operation, subject and role of a call of kind `k` for the tuple `t`: subject field 0, role
field 1. -/
def headOf (k : CallKind) (t : List String) : CallKind × String × String :=
  (k, t.getD 0 "", t.getD 1 "")

/-- Operation, subject, role and answer of a recorded call. -/
def Event.summary (ev : Event) : (CallKind × String × String) × Option GoError :=
  (ev.call.head, ev.response)

/-- The kind of link call the first loop makes under an operation tag. -/
def linkKind : PolicyOp → Option CallKind
  | PolicyOp.PolicyAdd => some CallKind.addLink
  | PolicyOp.PolicyRemove => some CallKind.deleteLink
  | PolicyOp.other _ => none

/-- Accepted link calls, one per tuple of `l` in order, as summaries. -/
def acceptedLinks (op : PolicyOp) (l : List (List String)) :
    List ((CallKind × String × String) × Option GoError) :=
  match linkKind op with
  | some k => l.map (fun t => (headOf k t, none))
  | none => []

/-- Accepted `BuildRelationship` calls, one per tuple of `l` in order, as summaries. -/
def acceptedRelationships (l : List (List String)) :
    List ((CallKind × String × String) × Option GoError) :=
  l.map (fun t => (headOf CallKind.buildRelationship t, none))

/-- A failed run over `rules` with events `tr`: there is a tuple `t`, with the tuples `pre`
before it all long enough, such that
* `t` is too short, and the calls are the accepted link calls of `pre`; or
* the link call of `t` failed, and the calls are the accepted link calls of `pre` and then the
  failed call; or
* links are being added, every tuple is long enough, the `BuildRelationship` call of `t`
  failed, and the calls are the accepted link calls of all tuples, the accepted
  `BuildRelationship` calls of `pre`, and then the failed call. -/
def FailedRun (count : Nat) (op : PolicyOp) (rules : List (List String)) (tr : List Event) :
    Prop :=
  ∃ pre t post, rules = pre ++ t :: post ∧ (∀ p ∈ pre, count ≤ p.length) ∧
    ((t.length < count ∧ tr.map Event.summary = acceptedLinks op pre)
    ∨ (count ≤ t.length ∧ ∃ k e, linkKind op = some k ∧
        tr.map Event.summary = acceptedLinks op pre ++ [(headOf k t, some e)])
    ∨ (op = PolicyOp.PolicyAdd ∧ (∀ p ∈ rules, count ≤ p.length) ∧ ∃ e,
        tr.map Event.summary = acceptedLinks op rules ++ acceptedRelationships pre ++
          [(headOf CallKind.buildRelationship t, some e)]))

/-- A capability without state that accepts every link call and rejects every
`BuildRelationship` call. -/
def rejectRelationship : RoleManager Unit where
  AddLink _ _ _ := fun s => (none, s)
  DeleteLink _ _ _ := fun s => (none, s)
  BuildRelationship _ _ _ := fun s => (some ⟨"rejected"⟩, s)

/-- A capability that accepts its first `n` calls and rejects every call after them; its state
is the number of calls received. -/
def rejectAfter (n : Nat) : RoleManager Nat where
  AddLink _ _ _ := fun s => (if s < n then none else some ⟨"rejected"⟩, s + 1)
  DeleteLink _ _ _ := fun s => (if s < n then none else some ⟨"rejected"⟩, s + 1)
  BuildRelationship _ _ _ := fun s => (if s < n then none else some ⟨"rejected"⟩, s + 1)

/-- The Assertion `ast` seen by a capability with another state type: the same fields, bound
to nothing. -/
def unbound {τ : Type} (ast : Assertion σ Logger) : Assertion τ Logger :=
  { Key := ast.Key, Value := ast.Value, Tokens := ast.Tokens, Policy := ast.Policy,
    PolicyMap := ast.PolicyMap, RM := none, logger := ast.logger,
    priorityIndex := ast.priorityIndex }

/-- Modelled from the spec: the invariant between `policy` and `policyMap`.  The code that
maintains the map, and the serialization `key` of a tuple it uses, are outside this file; the
spec calls the map a "mapping from a canonical serialization of a tuple to its index in
`policy`" in which "every key's value is a valid index into `policy`" and which is "exactly
the inverse of `policy`'s contents (no stale or missing entries)".  Every entry holds a valid
index of the tuple serialized by its key, every tuple has an entry, and there are as many
entries as distinct tuples. -/
def PolicyMapConsistent (key : List String → String) (ast : Assertion σ Logger) : Prop :=
  (∀ e ∈ ast.PolicyMap.entries, 0 ≤ e.2 ∧ (ast.Policy[e.2.toNat]?).map key = some e.1) ∧
  (∀ t ∈ ast.Policy, (ast.PolicyMap.lookup (key t)).isSome = true) ∧
  ast.PolicyMap.entries.length = ast.Policy.dedup.length

/-- A serialization of a tuple for concrete maps: its fields joined by commas. -/
def joinFields (t : List String) : String :=
  String.intercalate "," t

/-- An Assertion of definition `"_, _"` holding tuples and an index, bound to nothing. -/
def mkIndexed (policy : List (List String)) (policyMap : AList (fun _ : String => Int)) :
    Assertion Unit Unit :=
  { Key := "g", Value := "_, _", Tokens := [], Policy := policy, PolicyMap := policyMap,
    RM := none, logger := none, priorityIndex := -1 }

/-! ## Backing storage -/

/-- A Go slice value: the backing array it points into (`none` for a nil slice), the offset of
its first element in that array, its length and its capacity. -/
structure SliceRef where
  arr : Option Nat
  off : Nat
  len : Nat
  cap : Nat
deriving DecidableEq, Repr

/-- The nil slice, the zero value of a slice type. -/
def nilSlice : SliceRef := ⟨none, 0, 0, 0⟩

/-- The memory the values of an Assertion live in: the backing arrays of `[]string` slices, the
backing arrays of `[][]string` slices (arrays of slice values) and the map objects.  An address
is a position in the respective list; allocation appends. -/
structure Store where
  strings : List (List String)
  slices : List (List SliceRef)
  maps : List (AList (fun _ : String => Int))

/-- The elements of a `[]string` slice. -/
def readStrings (st : Store) (r : SliceRef) : List String :=
  match r.arr with
  | none => []
  | some a => (((st.strings[a]?).getD []).drop r.off).take r.len

/-- The elements of a `[][]string` slice: slice values. -/
def readSlices (st : Store) (r : SliceRef) : List SliceRef :=
  match r.arr with
  | none => []
  | some a => (((st.slices[a]?).getD []).drop r.off).take r.len

/-- The content of a map value; a nil map reads as the empty map. -/
def readMap (st : Store) (m : Option Nat) : AList (fun _ : String => Int) :=
  match m with
  | none => ∅
  | some a => (st.maps[a]?).getD ∅

/-- The built-in `append(dst, xs...)` on `[]string`: when the capacity of `dst` has room for
`xs` the elements are written into the backing array of `dst` after its last element;
otherwise a new backing array is allocated that holds the elements of `dst` followed by `xs`
(its capacity, which the runtime chooses no smaller than its length, is taken to be its
length).  A nil `dst` has capacity 0: appending nothing returns it, appending something
allocates. -/
def appendStrings (st : Store) (dst : SliceRef) (xs : List String) : SliceRef × Store :=
  if dst.len + xs.length ≤ dst.cap then
    match dst.arr with
    | none => (dst, st)
    | some a =>
      let old := (st.strings[a]?).getD []
      let new := old.take (dst.off + dst.len) ++ xs ++ old.drop (dst.off + dst.len + xs.length)
      ({ dst with len := dst.len + xs.length }, { st with strings := st.strings.set a new })
  else
    (⟨some st.strings.length, 0, dst.len + xs.length, dst.len + xs.length⟩,
      { st with strings := st.strings ++ [readStrings st dst ++ xs] })

/-- The call `make([][]string, n)`: a new backing array of `n` nil slices. -/
def makeSlices (st : Store) (n : Nat) : SliceRef × Store :=
  (⟨some st.slices.length, 0, n, n⟩,
    { st with slices := st.slices ++ [List.replicate n nilSlice] })

/-- The assignment `dst[i] = r` to an element of a `[][]string` slice, for `i < len(dst)`. -/
def setSlice (st : Store) (dst : SliceRef) (i : Nat) (r : SliceRef) : Store :=
  match dst.arr with
  | none => st
  | some a =>
    { st with slices := st.slices.set a (((st.slices[a]?).getD []).set (dst.off + i) r) }

/-- The assignment `r[j] = x` to an element of a `[]string` slice; nothing is written when `j`
is out of range (the program panics). -/
def setString (st : Store) (r : SliceRef) (j : Nat) (x : String) : Store :=
  match r.arr with
  | none => st
  | some a =>
    if j < r.len then
      { st with strings := st.strings.set a (((st.strings[a]?).getD []).set (r.off + j) x) }
    else st

/-- The call `make(map[string]int)`: a new empty map object. -/
def makeMap (st : Store) : Nat × Store :=
  (st.maps.length, { st with maps := st.maps ++ [∅] })

/-- The assignment `m[k] = v` on the map object at address `a`. -/
def mapAssign (st : Store) (a : Nat) (k : String) (v : Int) : Store :=
  { st with maps := st.maps.set a (((st.maps[a]?).getD ∅).insert k v) }

/-- The assignment `m[k] = v` through a map value; nothing is written through a nil map (the
program panics). -/
def setEntry (st : Store) (m : Option Nat) (k : String) (v : Int) : Store :=
  match m with
  | none => st
  | some a => mapAssign st a k v

/-- The `Assertion` struct with its slices and its map as the references they are. -/
structure AssertionRef (σ : Type) (Logger : Type) where
  Key : String
  Value : String
  Tokens : SliceRef
  Policy : SliceRef
  PolicyMap : Option Nat
  RM : Option (RoleManager σ)
  logger : Option Logger
  priorityIndex : Int

/-- The Assertion a reference-level Assertion stands for in a store: its slices and its map
read out. -/
def AssertionRef.value (ast : AssertionRef σ Logger) (st : Store) : Assertion σ Logger :=
  { Key := ast.Key
    Value := ast.Value
    Tokens := readStrings st ast.Tokens
    Policy := (readSlices st ast.Policy).map (readStrings st)
    PolicyMap := readMap st ast.PolicyMap
    RM := ast.RM
    logger := ast.logger
    priorityIndex := ast.priorityIndex }

/-- The loop `for i, p := range ast.Policy { policy[i] = append(policy[i], p...) }` (lines
120-122) over the indices `idx`, with `src` the slice `ast.Policy` and `dst` the slice
`policy`. -/
def copyTuples (src dst : SliceRef) (idx : List Nat) (st : Store) : Store :=
  idx.foldl (fun st i =>
    let p := ((readSlices st src)[i]?).getD nilSlice
    let r := appendStrings st (((readSlices st dst)[i]?).getD nilSlice) (readStrings st p)
    setSlice r.2 dst i r.1) st

/-- The method `Assertion.copy()` on references, in a store: the new Assertion and the store
after the call. -/
def copyRef (ast : AssertionRef σ Logger) (st : Store) : AssertionRef σ Logger × Store :=
  let tokens := appendStrings st nilSlice (readStrings st ast.Tokens)
  let policy := makeSlices tokens.2 ast.Policy.len
  let st3 := copyTuples ast.Policy policy.1 (List.range ast.Policy.len) policy.2
  let policyMap := makeMap st3
  let st5 := (readMap policyMap.2 ast.PolicyMap).entries.foldl
    (fun st kv => mapAssign st policyMap.1 kv.1 kv.2) policyMap.2
  ({ Key := ast.Key
     Value := ast.Value
     PolicyMap := some policyMap.1
     Tokens := tokens.1
     Policy := policy.1
     RM := none
     logger := none
     priorityIndex := ast.priorityIndex }, st5)

/-- A reference-level Assertion is well formed in a store: its references point to allocated
objects, and the backing array of `Policy` holds all its elements. -/
def WellFormed (st : Store) (ast : AssertionRef σ Logger) : Prop :=
  (∀ a ∈ ast.Tokens.arr, a < st.strings.length) ∧
  (∀ a ∈ ast.Policy.arr, a < st.slices.length) ∧
  (readSlices st ast.Policy).length = ast.Policy.len ∧
  (∀ t ∈ readSlices st ast.Policy, ∀ a ∈ t.arr, a < st.strings.length) ∧
  (∀ a ∈ ast.PolicyMap, a < st.maps.length)

/-- The state of the loop over the tuples after `i` of `n` iterations, for a loop started in
the store `base` extended by the new array of `n` nil slices: string arrays have only been
added, the new array holds `i` slices, each pointing to nothing or to an array added since,
that read as the first `i` tuples, followed by nil slices; nothing else has changed. -/
def TuplesCopied (base : Store) (tuples : List SliceRef) (n i : Nat) (s : Store) : Prop :=
  (∃ e, s.strings = base.strings ++ e) ∧
  (∃ done, s.slices = base.slices ++ [done ++ List.replicate (n - i) nilSlice] ∧
    done.length = i ∧
    done.map (readStrings s) = (tuples.take i).map (readStrings base) ∧
    ∀ t ∈ done, ∀ a, t.arr = some a → base.strings.length ≤ a ∧ a < s.strings.length) ∧
  s.maps = base.maps

/-- What `copyRef` has done, from the store `st` and the Assertion `a` to the Assertion `b` and
the store `st2`: string arrays have only been added; one array of slices has been added, the
backing array of `b.Policy`, whose slices point to nothing or to added string arrays and read
as the tuples of `a`; one map object has been added, the map of `b`, with the entries of the
map of `a`; the tokens of `b` point to nothing or to an added array and read as the tokens of
`a`. -/
def Copied (st : Store) (a b : AssertionRef σ Logger) (st2 : Store) : Prop :=
  (∃ e, st2.strings = st.strings ++ e) ∧
  (∃ row, st2.slices = st.slices ++ [row] ∧ row.length = a.Policy.len ∧
    row.map (readStrings st2) = (readSlices st a.Policy).map (readStrings st) ∧
    ∀ t ∈ row, ∀ x, t.arr = some x → st.strings.length ≤ x) ∧
  st2.maps = st.maps ++ [copyPolicyMap (readMap st a.PolicyMap).entries ∅] ∧
  readStrings st2 b.Tokens = readStrings st a.Tokens ∧
  (∀ x, b.Tokens.arr = some x → st.strings.length ≤ x) ∧
  b.Policy = ⟨some st.slices.length, 0, a.Policy.len, a.Policy.len⟩ ∧
  b.PolicyMap = some st.maps.length ∧
  b.Key = a.Key ∧ b.Value = a.Value ∧ b.RM = none ∧ b.logger = none ∧
  b.priorityIndex = a.priorityIndex

/-- A store with two tuples, a token array and an index, for concrete runs. -/
def sampleStore : Store where
  strings := [["alice", "admin"], ["bob", "editor"], ["sub", "role"]]
  slices := [[⟨some 0, 0, 2, 2⟩, ⟨some 1, 0, 2, 2⟩]]
  maps := [((∅ : AList (fun _ : String => Int)).insert "alice,admin" 0).insert "bob,editor" 1]

/-- An Assertion in `sampleStore`: its tokens, its two tuples and its index. -/
def sampleRef : AssertionRef Unit Unit where
  Key := "g"
  Value := "_, _"
  Tokens := ⟨some 2, 0, 2, 2⟩
  Policy := ⟨some 0, 0, 2, 2⟩
  PolicyMap := some 0
  RM := none
  logger := none
  priorityIndex := -1

/-- The message of the error a call returned, if it returned one. -/
def Outcome.message : Outcome → Option String
  | Outcome.error e => some e.msg
  | _ => none

/-! ## The capability and the storage of the tuples -/

/-- Modelled from the spec: a capability together with what its operations write into the
storage they are handed.  The interface is declared outside `assertion.go`.  A call
`rm.AddLink(rule[0], rule[1], rule[2:]...)` passes the slice `rule[2:]` itself as the variadic
parameter, no new slice is made: the callee can assign to the qualifiers it sees and, by
appending or reslicing, to every element of the backing array from the first qualifier up to
the capacity of the slice.  `AddLinkWrites a b dom reach s` is what a call with qualifiers
`dom`, in state `s`, leaves in that part of the array when it held `reach` (which starts with
`dom`); likewise for the other two operations. -/
structure RoleManagerRef (σ : Type) extends RoleManager σ where
  AddLinkWrites : String → String → List String → List String → σ → List String
  DeleteLinkWrites : String → String → List String → List String → σ → List String
  BuildRelationshipWrites : String → String → List String → List String → σ → List String

/-- The slice expression `r[:n]`: same backing array, offset and capacity, length `n`. -/
def sliceTo (r : SliceRef) (n : Nat) : SliceRef :=
  { r with len := n }

/-- The slice expression `r[n:]`: same backing array, `n` elements further on. -/
def sliceFrom (r : SliceRef) (n : Nat) : SliceRef :=
  ⟨r.arr, r.off + n, r.len - n, r.cap - n⟩

/-- What a callee reaches through a `[]string` slice: the elements of the backing array from
the first element of the slice up to its capacity. -/
def reachOf (st : Store) (r : SliceRef) : List String :=
  match r.arr with
  | none => []
  | some a => (((st.strings[a]?).getD []).drop r.off).take r.cap

/-- The store after a callee has left `new` in the part of the backing array it reaches
through `r`; elements outside that part stay as they are. -/
def writeReach (st : Store) (r : SliceRef) (new : List String) : Store :=
  match r.arr with
  | none => st
  | some a =>
    let old := (st.strings[a]?).getD []
    let seg := (old.drop r.off).take r.cap
    let arr := old.take r.off ++ (new.take seg.length ++ seg.drop new.length) ++
      old.drop (r.off + seg.length)
    { st with strings := st.strings.set a arr }

/-- The arguments `rule[0], rule[1], rule[2:]...` of a capability call on a slice: the two
strings and the slice `rule[2:]`; `none` when evaluating them panics (fewer than two
elements). -/
def linkArgsRef (st : Store) (rule : SliceRef) : Option (String × String × SliceRef) :=
  match readStrings st rule with
  | a :: b :: _ => some (a, b, sliceFrom rule 2)
  | _ => none

/-- The first loop of `buildIncrementalRoleLinks` (lines 46-65) on references: `rules` is the
slice ranged over, `idx` the indices still to visit; the capability is in state `s`, the
memory is `st`. -/
def incrementalLinkLoopRef (rm : RoleManagerRef σ) (count : Nat) (op : PolicyOp)
    (rules : SliceRef) : List Nat → σ → Store → Option Outcome × σ × Store
  | [], s, st => (none, s, st)
  | i :: idx, s, st =>
    let rule := ((readSlices st rules)[i]?).getD nilSlice
    if rule.len < count then
      (some (Outcome.error errGroupingPolicy), s, st)
    else
      let rule := if rule.len > count then sliceTo rule count else rule
      match op with
      | PolicyOp.PolicyAdd =>
        match linkArgsRef st rule with
        | none => (some Outcome.indexPanic, s, st)
        | some (a, b, dom) =>
          let st1 := writeReach st dom
            (rm.AddLinkWrites a b (readStrings st dom) (reachOf st dom) s)
          match rm.AddLink a b (readStrings st dom) s with
          | (some err, s1) => (some (Outcome.error err), s1, st1)
          | (none, s1) => incrementalLinkLoopRef rm count op rules idx s1 st1
      | PolicyOp.PolicyRemove =>
        match linkArgsRef st rule with
        | none => (some Outcome.indexPanic, s, st)
        | some (a, b, dom) =>
          let st1 := writeReach st dom
            (rm.DeleteLinkWrites a b (readStrings st dom) (reachOf st dom) s)
          match rm.DeleteLink a b (readStrings st dom) s with
          | (some err, s1) => (some (Outcome.error err), s1, st1)
          | (none, s1) => incrementalLinkLoopRef rm count op rules idx s1 st1
      | PolicyOp.other _ => incrementalLinkLoopRef rm count op rules idx s st

/-- The loop over `rm.BuildRelationship(rule[0], rule[1], rule[2:]...)` (lines 68-73 and
98-103) on references. -/
def relationshipLoopRef (rm : RoleManagerRef σ) (rules : SliceRef) :
    List Nat → σ → Store → Option Outcome × σ × Store
  | [], s, st => (none, s, st)
  | i :: idx, s, st =>
    let rule := ((readSlices st rules)[i]?).getD nilSlice
    match linkArgsRef st rule with
    | none => (some Outcome.indexPanic, s, st)
    | some (a, b, dom) =>
      let st1 := writeReach st dom
        (rm.BuildRelationshipWrites a b (readStrings st dom) (reachOf st dom) s)
      match rm.BuildRelationship a b (readStrings st dom) s with
      | (some err, s1) => (some (Outcome.error err), s1, st1)
      | (none, s1) => relationshipLoopRef rm rules idx s1 st1

/-- The method `Assertion.buildIncrementalRoleLinks(rm, op, rules)` on references: the
outcome, the receiver after the call, the state of the capability and the memory after it. -/
def buildIncrementalRoleLinksRef (ast : AssertionRef σ Logger) (rm : RoleManagerRef σ)
    (op : PolicyOp) (rules : SliceRef) (s : σ) (st : Store) :
    Outcome × AssertionRef σ Logger × σ × Store :=
  let ast := { ast with RM := some rm.toRoleManager }
  let count := countUnderscore ast.Value
  if count < 2 then
    (Outcome.error errRoleDefinition, ast, s, st)
  else
    match incrementalLinkLoopRef rm count op rules (List.range rules.len) s st with
    | (some o, s1, st1) => (o, ast, s1, st1)
    | (none, s1, st1) =>
      if op = PolicyOp.PolicyAdd then
        match relationshipLoopRef rm rules (List.range rules.len) s1 st1 with
        | (some o, s2, st2) => (o, ast, s2, st2)
        | (none, s2, st2) => (Outcome.nil, ast, s2, st2)
      else
        (Outcome.nil, ast, s1, st1)

/-- The first loop of `buildRoleLinks` (lines 85-96) on references. -/
def linkLoopRef (rm : RoleManagerRef σ) (count : Nat) (rules : SliceRef) :
    List Nat → σ → Store → Option Outcome × σ × Store
  | [], s, st => (none, s, st)
  | i :: idx, s, st =>
    let rule := ((readSlices st rules)[i]?).getD nilSlice
    if rule.len < count then
      (some (Outcome.error errGroupingPolicy), s, st)
    else
      let rule := if rule.len > count then sliceTo rule count else rule
      match linkArgsRef st rule with
      | none => (some Outcome.indexPanic, s, st)
      | some (a, b, dom) =>
        let st1 := writeReach st dom
          (rm.AddLinkWrites a b (readStrings st dom) (reachOf st dom) s)
        match rm.AddLink a b (readStrings st dom) s with
        | (some err, s1) => (some (Outcome.error err), s1, st1)
        | (none, s1) => linkLoopRef rm count rules idx s1 st1

/-- The method `Assertion.buildRoleLinks(rm)` on references. -/
def buildRoleLinksRef (ast : AssertionRef σ Logger) (rm : RoleManagerRef σ) (s : σ)
    (st : Store) : Outcome × AssertionRef σ Logger × σ × Store :=
  let ast := { ast with RM := some rm.toRoleManager }
  let count := countUnderscore ast.Value
  if count < 2 then
    (Outcome.error errRoleDefinition, ast, s, st)
  else
    match linkLoopRef rm count ast.Policy (List.range ast.Policy.len) s st with
    | (some o, s1, st1) => (o, ast, s1, st1)
    | (none, s1, st1) =>
      match relationshipLoopRef rm ast.Policy (List.range ast.Policy.len) s1 st1 with
      | (some o, s2, st2) => (o, ast, s2, st2)
      | (none, s2, st2) => (Outcome.nil, ast, s2, st2)

/-- The capability writes nothing into the storage it is handed: every operation leaves the
part of the backing array it reaches as it found it. -/
def Quiet (rm : RoleManagerRef σ) : Prop :=
  ∀ (a b : String) (dom reach : List String) (s : σ),
    rm.AddLinkWrites a b dom reach s = reach ∧ rm.DeleteLinkWrites a b dom reach s = reach ∧
      rm.BuildRelationshipWrites a b dom reach s = reach

theorem linkArgs_truncated {count : Nat} {t : List String} (hc : 2 ≤ count)
    (ht : count ≤ t.length) :
    linkArgs (if t.length > count then t.take count else t)
      = some (t.getD 0 "", t.getD 1 "", (t.take count).drop 2) := by
  match t, ht with
  | [], ht => simp at ht; omega
  | [_], ht => simp at ht; omega
  | a :: b :: rest, ht =>
    obtain ⟨c, rfl⟩ : ∃ c, count = c + 2 := ⟨count - 2, by omega⟩
    by_cases h : c < rest.length
    · simp [h, linkArgs]
    · have hlen : rest.length ≤ c := by omega
      simp [h, linkArgs, List.take_of_length_le hlen]

theorem linkArgs_of_two_le {t : List String} (ht : 2 ≤ t.length) :
    linkArgs t = some (t.getD 0 "", t.getD 1 "", t.drop 2) := by
  match t, ht with
  | [], ht => simp at ht
  | [_], ht => simp at ht
  | a :: b :: rest, _ => simp [linkArgs]

theorem linkLoop_eq_incremental (rm : RoleManager σ) (count : Nat) (rules : List (List String))
    (s : σ) : linkLoop rm count rules s = incrementalLinkLoop rm count PolicyOp.PolicyAdd rules s := by
  induction rules generalizing s with
  | nil => rfl
  | cons rule rules ih =>
    unfold linkLoop incrementalLinkLoop
    by_cases h : rule.length < count
    · simp [h]
    · simp only [h, if_false]
      cases hargs : linkArgs (if rule.length > count then rule.take count else rule) with
      | none => rfl
      | some args =>
        obtain ⟨a, b, dom⟩ := args
        simp only []
        rcases hr : rm.AddLink a b dom s with ⟨_ | e, s1⟩
        · simp [ih]
        · simp

theorem Answered.addLink {rm : RoleManager σ} {a b : String} {dom : List String} {s s1 : σ}
    {r : Option GoError} (h : rm.AddLink a b dom s = (r, s1)) :
    Answered rm ⟨Call.AddLink a b dom, r⟩ := ⟨s, by simp [h]⟩

theorem Answered.deleteLink {rm : RoleManager σ} {a b : String} {dom : List String} {s s1 : σ}
    {r : Option GoError} (h : rm.DeleteLink a b dom s = (r, s1)) :
    Answered rm ⟨Call.DeleteLink a b dom, r⟩ := ⟨s, by simp [h]⟩

theorem Answered.buildRelationship {rm : RoleManager σ} {a b : String} {dom : List String}
    {s s1 : σ} {r : Option GoError} (h : rm.BuildRelationship a b dom s = (r, s1)) :
    Answered rm ⟨Call.BuildRelationship a b dom, r⟩ := ⟨s, by simp [h]⟩

theorem Answered.response_eq_none {rm : RoleManager σ} (hrm : Accepts rm) {ev : Event}
    (h : Answered rm ev) : ev.response = none := by
  obtain ⟨s, hs⟩ := h
  rcases ev with ⟨c, r⟩
  cases c with
  | AddLink a b dom => simpa [(hrm a b dom s).1] using hs
  | DeleteLink a b dom => simpa [(hrm a b dom s).2.1] using hs
  | BuildRelationship a b dom => simpa [(hrm a b dom s).2.2] using hs

theorem linkPhase_cons {count : Nat} {op : PolicyOp} {rules : List (List String)}
    {o : Option Outcome} {evs : List Event} {t : List String} (ht : count ≤ t.length)
    (h : LinkPhase count op rules o evs) :
    LinkPhase count op (t :: rules) o (((linkCallOf op count t).map accepted).toList ++ evs) := by
  rcases h with ⟨ho, hall, hevs⟩ | ⟨pre, u, post, hr, hpre, hu, ho, hevs⟩ |
      ⟨pre, u, post, c, e, hr, hpre, hu, hc, ho, hevs⟩
  · refine Or.inl ⟨ho, ?_, ?_⟩
    · intro x hx
      rcases List.mem_cons.1 hx with rfl | hx
      · exact ht
      · exact hall x hx
    · subst hevs
      cases hcall : linkCallOf op count t <;> simp [List.filterMap_cons, hcall]
  · refine Or.inr (Or.inl ⟨t :: pre, u, post, by simp [hr], ?_, hu, ho, ?_⟩)
    · intro x hx
      rcases List.mem_cons.1 hx with rfl | hx
      · exact ht
      · exact hpre x hx
    · subst hevs
      cases hcall : linkCallOf op count t <;> simp [List.filterMap_cons, hcall]
  · refine Or.inr (Or.inr ⟨t :: pre, u, post, c, e, by simp [hr], ?_, hu, hc, ho, ?_⟩)
    · intro x hx
      rcases List.mem_cons.1 hx with rfl | hx
      · exact ht
      · exact hpre x hx
    · subst hevs
      cases hcall : linkCallOf op count t <;> simp [List.filterMap_cons, hcall]

theorem relationshipPhase_cons {rules : List (List String)} {o : Option Outcome}
    {evs : List Event} (t : List String) (h : RelationshipPhase rules o evs) :
    RelationshipPhase (t :: rules) o (accepted (relationshipOf t) :: evs) := by
  rcases h with ⟨ho, hevs⟩ | ⟨pre, u, post, e, hr, ho, hevs⟩
  · exact Or.inl ⟨ho, by simp [hevs]⟩
  · exact Or.inr ⟨t :: pre, u, post, e, by simp [hr], ho, by simp [hevs]⟩

theorem traced_AddLink {rm : RoleManager σ} {a b : String} {dom : List String} {s s1 : σ}
    {r : Option GoError} (h : rm.AddLink a b dom s = (r, s1)) (log : List Event) :
    (traced rm).AddLink a b dom (s, log) = (r, (s1, log ++ [⟨Call.AddLink a b dom, r⟩])) := by
  simp [traced, h]

theorem traced_DeleteLink {rm : RoleManager σ} {a b : String} {dom : List String} {s s1 : σ}
    {r : Option GoError} (h : rm.DeleteLink a b dom s = (r, s1)) (log : List Event) :
    (traced rm).DeleteLink a b dom (s, log) = (r, (s1, log ++ [⟨Call.DeleteLink a b dom, r⟩])) := by
  simp [traced, h]

theorem traced_BuildRelationship {rm : RoleManager σ} {a b : String} {dom : List String}
    {s s1 : σ} {r : Option GoError} (h : rm.BuildRelationship a b dom s = (r, s1))
    (log : List Event) :
    (traced rm).BuildRelationship a b dom (s, log)
      = (r, (s1, log ++ [⟨Call.BuildRelationship a b dom, r⟩])) := by
  simp [traced, h]

/-- Recording changes nothing: the first loop on the recording double ends as on the
capability itself, with the capability in the same state. -/
theorem incrementalLinkLoop_traced_faithful (rm : RoleManager σ) (count : Nat) (op : PolicyOp)
    (rules : List (List String)) (s : σ) (log : List Event) :
    (incrementalLinkLoop (traced rm) count op rules (s, log)).1
        = (incrementalLinkLoop rm count op rules s).1 ∧
      (incrementalLinkLoop (traced rm) count op rules (s, log)).2.1
        = (incrementalLinkLoop rm count op rules s).2 := by
  induction rules generalizing s log with
  | nil => simp [incrementalLinkLoop]
  | cons t rules ih =>
    rw [incrementalLinkLoop, incrementalLinkLoop]
    by_cases hlt : t.length < count
    · simp [hlt]
    · simp only [hlt, ↓reduceIte]
      cases op with
      | PolicyAdd =>
        cases hargs : linkArgs (if t.length > count then List.take count t else t) with
        | none => simp
        | some args =>
          obtain ⟨a, b, dom⟩ := args
          rcases hr : rm.AddLink a b dom s with ⟨_ | e, s1⟩
          · simp only [traced_AddLink hr, hr]
            exact ih s1 _
          · simp [traced_AddLink hr, hr]
      | PolicyRemove =>
        cases hargs : linkArgs (if t.length > count then List.take count t else t) with
        | none => simp
        | some args =>
          obtain ⟨a, b, dom⟩ := args
          rcases hr : rm.DeleteLink a b dom s with ⟨_ | e, s1⟩
          · simp only [traced_DeleteLink hr, hr]
            exact ih s1 _
          · simp [traced_DeleteLink hr, hr]
      | other tag => exact ih s log

/-- Recording changes nothing in the second loop either. -/
theorem relationshipLoop_traced_faithful (rm : RoleManager σ) (rules : List (List String))
    (s : σ) (log : List Event) :
    (relationshipLoop (traced rm) rules (s, log)).1 = (relationshipLoop rm rules s).1 ∧
      (relationshipLoop (traced rm) rules (s, log)).2.1 = (relationshipLoop rm rules s).2 := by
  induction rules generalizing s log with
  | nil => simp [relationshipLoop]
  | cons t rules ih =>
    rw [relationshipLoop, relationshipLoop]
    cases hargs : linkArgs t with
    | none => simp
    | some args =>
      obtain ⟨a, b, dom⟩ := args
      rcases hr : rm.BuildRelationship a b dom s with ⟨_ | e, s1⟩
      · simp only [traced_BuildRelationship hr, hr]
        exact ih s1 _
      · simp [traced_BuildRelationship hr, hr]

/-- The outcome observed through the recording double, and the state it leaves the capability
in, are those of the update run on the capability itself. -/
theorem buildIncrementalRoleLinks_traced_faithful (ast : Assertion (σ × List Event) Logger)
    (ast0 : Assertion σ Logger) (hv : ast.Value = ast0.Value) (rm : RoleManager σ)
    (op : PolicyOp) (rules : List (List String)) (s : σ) :
    incrementalOutcome ast rm op rules s = (buildIncrementalRoleLinks ast0 rm op rules s).1 ∧
      (buildIncrementalRoleLinks ast (traced rm) op rules (s, [])).2.2.1
        = (buildIncrementalRoleLinks ast0 rm op rules s).2.2 := by
  unfold incrementalOutcome buildIncrementalRoleLinks
  simp only [hv]
  by_cases hc : countUnderscore ast0.Value < 2
  · simp [hc]
  · simp only [hc, ↓reduceIte]
    obtain ⟨h1, h2⟩ := incrementalLinkLoop_traced_faithful rm (countUnderscore ast0.Value) op
      rules s []
    rcases hres : incrementalLinkLoop (traced rm) (countUnderscore ast0.Value) op rules (s, [])
      with ⟨_ | o, s1, log1⟩
    · rcases hres0 : incrementalLinkLoop rm (countUnderscore ast0.Value) op rules s
        with ⟨_ | o0, s0⟩
      · rw [hres, hres0] at h1 h2
        simp only at h2
        subst h2
        by_cases hop : op = PolicyOp.PolicyAdd
        · simp only [hop, ↓reduceIte]
          obtain ⟨h3, h4⟩ := relationshipLoop_traced_faithful rm rules s1 log1
          rcases hres2 : relationshipLoop (traced rm) rules (s1, log1) with ⟨_ | o2, s2, log2⟩
          · rcases hres3 : relationshipLoop rm rules s1 with ⟨_ | o3, s3⟩
            · rw [hres2, hres3] at h4
              exact ⟨rfl, h4⟩
            · rw [hres2, hres3] at h3
              simp at h3
          · rcases hres3 : relationshipLoop rm rules s1 with ⟨_ | o3, s3⟩
            · rw [hres2, hres3] at h3
              simp at h3
            · rw [hres2, hres3] at h3 h4
              simp only [Option.some.injEq] at h3
              exact ⟨h3, h4⟩
        · simp [hop]
      · rw [hres, hres0] at h1
        simp at h1
    · rcases hres0 : incrementalLinkLoop rm (countUnderscore ast0.Value) op rules s
        with ⟨_ | o0, s0⟩
      · rw [hres, hres0] at h1
        simp at h1
      · rw [hres, hres0] at h1 h2
        simp only [Option.some.injEq] at h1
        exact ⟨h1, h2⟩

/-- The first loop, run on the recording double: the log grows by the events of the loop. -/
theorem incrementalLinkLoop_traced {count : Nat} (hc : 2 ≤ count) (rm : RoleManager σ)
    (op : PolicyOp) (rules : List (List String)) (s : σ) (log : List Event) :
    ∃ evs, (incrementalLinkLoop (traced rm) count op rules (s, log)).2.2 = log ++ evs ∧
      LinkPhase count op rules (incrementalLinkLoop (traced rm) count op rules (s, log)).1 evs ∧
      ∀ ev ∈ evs, Answered rm ev := by
  induction rules generalizing s log with
  | nil => exact ⟨[], by simp [incrementalLinkLoop], Or.inl ⟨rfl, by simp, by simp⟩, by simp⟩
  | cons t rules ih =>
    by_cases hlt : t.length < count
    · refine ⟨[], by simp [incrementalLinkLoop, hlt],
        Or.inr (Or.inl ⟨[], t, rules, rfl, ?_, hlt, ?_, ?_⟩), by simp⟩
      · simp
      · simp [incrementalLinkLoop, hlt]
      · simp
    · have ht : count ≤ t.length := by omega
      have hargs := linkArgs_truncated hc ht
      cases op with
      | PolicyAdd =>
        rcases hr : rm.AddLink (t.getD 0 "") (t.getD 1 "") ((t.take count).drop 2) s with ⟨_ | e, s1⟩
        · obtain ⟨evs, hlog, hph, hans⟩ := ih s1 (log ++ [accepted (addLinkOf count t)])
          have hstep : incrementalLinkLoop (traced rm) count PolicyOp.PolicyAdd (t :: rules) (s, log)
              = incrementalLinkLoop (traced rm) count PolicyOp.PolicyAdd rules
                  (s1, log ++ [accepted (addLinkOf count t)]) := by
            rw [incrementalLinkLoop]
            simp only [hlt, ↓reduceIte, hargs, traced_AddLink hr, accepted, addLinkOf]
          rw [hstep]
          refine ⟨accepted (addLinkOf count t) :: evs, by simp [hlog], ?_, ?_⟩
          · simpa [linkCallOf] using linkPhase_cons ht hph
          · intro ev hev
            rcases List.mem_cons.1 hev with rfl | hev
            · exact Answered.addLink hr
            · exact hans ev hev
        · have hstep : incrementalLinkLoop (traced rm) count PolicyOp.PolicyAdd (t :: rules) (s, log)
              = (some (Outcome.error e), (s1, log ++ [⟨addLinkOf count t, some e⟩])) := by
            rw [incrementalLinkLoop]
            simp only [hlt, ↓reduceIte, hargs, traced_AddLink hr, addLinkOf]
          rw [hstep]
          refine ⟨[⟨addLinkOf count t, some e⟩], rfl,
            Or.inr (Or.inr ⟨[], t, rules, addLinkOf count t, e, rfl, by simp, ht, rfl, rfl, by simp⟩), ?_⟩
          intro ev hev
          rw [List.mem_singleton.1 hev]
          exact Answered.addLink hr
      | PolicyRemove =>
        rcases hr : rm.DeleteLink (t.getD 0 "") (t.getD 1 "") ((t.take count).drop 2) s with ⟨_ | e, s1⟩
        · obtain ⟨evs, hlog, hph, hans⟩ := ih s1 (log ++ [accepted (deleteLinkOf count t)])
          have hstep : incrementalLinkLoop (traced rm) count PolicyOp.PolicyRemove (t :: rules) (s, log)
              = incrementalLinkLoop (traced rm) count PolicyOp.PolicyRemove rules
                  (s1, log ++ [accepted (deleteLinkOf count t)]) := by
            rw [incrementalLinkLoop]
            simp only [hlt, ↓reduceIte, hargs, traced_DeleteLink hr, accepted, deleteLinkOf]
          rw [hstep]
          refine ⟨accepted (deleteLinkOf count t) :: evs, by simp [hlog], ?_, ?_⟩
          · simpa [linkCallOf] using linkPhase_cons ht hph
          · intro ev hev
            rcases List.mem_cons.1 hev with rfl | hev
            · exact Answered.deleteLink hr
            · exact hans ev hev
        · have hstep : incrementalLinkLoop (traced rm) count PolicyOp.PolicyRemove (t :: rules) (s, log)
              = (some (Outcome.error e), (s1, log ++ [⟨deleteLinkOf count t, some e⟩])) := by
            rw [incrementalLinkLoop]
            simp only [hlt, ↓reduceIte, hargs, traced_DeleteLink hr, deleteLinkOf]
          rw [hstep]
          refine ⟨[⟨deleteLinkOf count t, some e⟩], rfl,
            Or.inr (Or.inr ⟨[], t, rules, deleteLinkOf count t, e, rfl, by simp, ht, rfl, rfl, by simp⟩), ?_⟩
          intro ev hev
          rw [List.mem_singleton.1 hev]
          exact Answered.deleteLink hr
      | other tag =>
        obtain ⟨evs, hlog, hph, hans⟩ := ih s log
        have hstep : incrementalLinkLoop (traced rm) count (PolicyOp.other tag) (t :: rules) (s, log)
            = incrementalLinkLoop (traced rm) count (PolicyOp.other tag) rules (s, log) := by
          rw [incrementalLinkLoop]
          simp [hlt]
        rw [hstep]
        refine ⟨evs, hlog, ?_, hans⟩
        have hcons : LinkPhase count (PolicyOp.other tag) (t :: rules) _ _ := linkPhase_cons ht hph
        simpa [linkCallOf] using hcons

/-- The second loop, run on the recording double over tuples of at least two fields. -/
theorem relationshipLoop_traced (rm : RoleManager σ) (rules : List (List String))
    (h2 : ∀ t ∈ rules, 2 ≤ t.length) (s : σ) (log : List Event) :
    ∃ evs, (relationshipLoop (traced rm) rules (s, log)).2.2 = log ++ evs ∧
      RelationshipPhase rules (relationshipLoop (traced rm) rules (s, log)).1 evs ∧
      ∀ ev ∈ evs, Answered rm ev := by
  induction rules generalizing s log with
  | nil => exact ⟨[], by simp [relationshipLoop], Or.inl ⟨rfl, by simp⟩, by simp⟩
  | cons t rules ih =>
    have hargs := linkArgs_of_two_le (h2 t (List.mem_cons_self _ _))
    have h2r : ∀ u ∈ rules, 2 ≤ u.length := fun u hu => h2 u (List.mem_cons_of_mem _ hu)
    rcases hr : rm.BuildRelationship (t.getD 0 "") (t.getD 1 "") (t.drop 2) s with ⟨_ | e, s1⟩
    · obtain ⟨evs, hlog, hph, hans⟩ := ih h2r s1 (log ++ [accepted (relationshipOf t)])
      have hstep : relationshipLoop (traced rm) (t :: rules) (s, log)
          = relationshipLoop (traced rm) rules (s1, log ++ [accepted (relationshipOf t)]) := by
        rw [relationshipLoop]
        simp only [hargs, traced_BuildRelationship hr, accepted, relationshipOf]
      rw [hstep]
      refine ⟨accepted (relationshipOf t) :: evs, by simp [hlog], relationshipPhase_cons t hph, ?_⟩
      intro ev hev
      rcases List.mem_cons.1 hev with rfl | hev
      · exact Answered.buildRelationship hr
      · exact hans ev hev
    · have hstep : relationshipLoop (traced rm) (t :: rules) (s, log)
          = (some (Outcome.error e), (s1, log ++ [⟨relationshipOf t, some e⟩])) := by
        rw [relationshipLoop]
        simp only [hargs, traced_BuildRelationship hr, relationshipOf]
      rw [hstep]
      refine ⟨[⟨relationshipOf t, some e⟩], rfl, Or.inr ⟨[], t, rules, e, rfl, rfl, by simp⟩, ?_⟩
      intro ev hev
      rw [List.mem_singleton.1 hev]
      exact Answered.buildRelationship hr

/-- Every incremental update with arity at least 2 has one of the four shapes, and every
recorded response is an answer of the capability. -/
theorem incremental_run (ast : Assertion (σ × List Event) Logger) (rm : RoleManager σ)
    (op : PolicyOp) (rules : List (List String)) (s : σ)
    (hc : 2 ≤ countUnderscore ast.Value) :
    RunShape (countUnderscore ast.Value) op rules (incrementalOutcome ast rm op rules s)
        (incrementalTrace ast rm op rules s) ∧
      ∀ ev ∈ incrementalTrace ast rm op rules s, Answered rm ev := by
  obtain ⟨evs, hlog, hph, hans⟩ := incrementalLinkLoop_traced hc rm op rules s []
  have hnot : ¬ countUnderscore ast.Value < 2 := by omega
  rcases hres : incrementalLinkLoop (traced rm) (countUnderscore ast.Value) op rules (s, [])
    with ⟨_ | o, s1, log1⟩
  · -- the first loop ran to its end
    rw [hres] at hlog hph
    simp only [List.nil_append] at hlog
    subst hlog
    rcases hph with ⟨_, hall, hevs⟩ | ⟨_, _, _, _, _, _, ho, _⟩ | ⟨_, _, _, _, _, _, _, _, _, ho, _⟩
    · by_cases hop : op = PolicyOp.PolicyAdd
      · subst hop
        have h2 : ∀ t ∈ rules, 2 ≤ t.length := fun t ht => le_trans hc (hall t ht)
        obtain ⟨evs2, hlog2, hph2, hans2⟩ := relationshipLoop_traced rm rules h2 s1 log1
        rcases hres2 : relationshipLoop (traced rm) rules (s1, log1) with ⟨_ | o2, s2, log2⟩
        · rw [hres2] at hlog2 hph2
          simp only at hlog2
          subst hlog2
          have hout : incrementalOutcome ast rm PolicyOp.PolicyAdd rules s = Outcome.nil := by
            simp [incrementalOutcome, buildIncrementalRoleLinks, hnot, hres, hres2]
          have htr : incrementalTrace ast rm PolicyOp.PolicyAdd rules s = log1 ++ evs2 := by
            simp [incrementalTrace, buildIncrementalRoleLinks, hnot, hres, hres2]
          rw [hout, htr]
          rcases hph2 with ⟨_, hevs2⟩ | ⟨_, _, _, _, _, ho2, _⟩
          · refine ⟨Or.inl ⟨rfl, hall, ?_⟩, ?_⟩
            · simp [hevs, hevs2, linkEvents, relationshipEvents]
            · intro ev hev
              rcases List.mem_append.1 hev with h | h
              · exact hans ev h
              · exact hans2 ev h
          · simp at ho2
        · rw [hres2] at hlog2 hph2
          simp only at hlog2
          subst hlog2
          have hout : incrementalOutcome ast rm PolicyOp.PolicyAdd rules s = o2 := by
            simp [incrementalOutcome, buildIncrementalRoleLinks, hnot, hres, hres2]
          have htr : incrementalTrace ast rm PolicyOp.PolicyAdd rules s = log1 ++ evs2 := by
            simp [incrementalTrace, buildIncrementalRoleLinks, hnot, hres, hres2]
          rw [hout, htr]
          rcases hph2 with ⟨ho2, _⟩ | ⟨pre, t, post, e, hr, ho2, hevs2⟩
          · simp at ho2
          · refine ⟨Or.inr (Or.inr (Or.inr ⟨rfl, pre, t, post, e, hr, hall, ?_, ?_⟩)), ?_⟩
            · simpa using ho2
            · simp [hevs, hevs2, linkEvents, relationshipEvents]
            · intro ev hev
              rcases List.mem_append.1 hev with h | h
              · exact hans ev h
              · exact hans2 ev h
      · have hout : incrementalOutcome ast rm op rules s = Outcome.nil := by
          simp [incrementalOutcome, buildIncrementalRoleLinks, hnot, hres, hop]
        have htr : incrementalTrace ast rm op rules s = log1 := by
          simp [incrementalTrace, buildIncrementalRoleLinks, hnot, hres, hop]
        rw [hout, htr]
        exact ⟨Or.inl ⟨rfl, hall, by simp [hop, hevs, linkEvents]⟩, hans⟩
    · simp at ho
    · simp at ho
  · -- the function returned inside the first loop
    rw [hres] at hlog hph
    simp only [List.nil_append] at hlog
    subst hlog
    have hout : incrementalOutcome ast rm op rules s = o := by
      simp [incrementalOutcome, buildIncrementalRoleLinks, hnot, hres]
    have htr : incrementalTrace ast rm op rules s = log1 := by
      simp [incrementalTrace, buildIncrementalRoleLinks, hnot, hres]
    rw [hout, htr]
    refine ⟨?_, hans⟩
    rcases hph with ⟨ho, _⟩ | ⟨pre, t, post, hr, hpre, ht, ho, hevs⟩ |
        ⟨pre, t, post, c, e, hr, hpre, ht, hcall, ho, hevs⟩
    · simp at ho
    · exact Or.inr (Or.inl ⟨pre, t, post, hr, hpre, ht, by simpa using ho, by simp [hevs, linkEvents]⟩)
    · exact Or.inr (Or.inr (Or.inl ⟨pre, t, post, c, e, hr, hpre, ht, hcall, by simpa using ho,
        by simp [hevs, linkEvents]⟩))

/-- A full rebuild is the incremental update that adds the whole policy: same outcome, same
final capability state. -/
theorem buildRoleLinks_eq_incremental (ast : Assertion σ Logger) (rm : RoleManager σ) (s : σ) :
    buildRoleLinks ast rm s = buildIncrementalRoleLinks ast rm PolicyOp.PolicyAdd ast.Policy s := by
  unfold buildRoleLinks buildIncrementalRoleLinks
  simp only [linkLoop_eq_incremental, if_true]

/-- Every full rebuild with arity at least 2 has one of the four shapes. -/
theorem full_run (ast : Assertion (σ × List Event) Logger) (rm : RoleManager σ) (s : σ)
    (hc : 2 ≤ countUnderscore ast.Value) :
    RunShape (countUnderscore ast.Value) PolicyOp.PolicyAdd ast.Policy (fullOutcome ast rm s)
        (fullTrace ast rm s) ∧
      ∀ ev ∈ fullTrace ast rm s, Answered rm ev := by
  have h := incremental_run ast rm PolicyOp.PolicyAdd ast.Policy s hc
  simpa [fullOutcome, fullTrace, incrementalOutcome, incrementalTrace,
    buildRoleLinks_eq_incremental] using h

/-! ## Runs on a capability that accepts every call -/

theorem linkEvents_add (count : Nat) (l : List (List String)) :
    linkEvents count PolicyOp.PolicyAdd l = (l.map (addLinkOf count)).map accepted := by
  unfold linkEvents
  congr 1
  induction l with
  | nil => rfl
  | cons t l ih => simp [List.filterMap_cons, linkCallOf, ih]

theorem linkEvents_remove (count : Nat) (l : List (List String)) :
    linkEvents count PolicyOp.PolicyRemove l = (l.map (deleteLinkOf count)).map accepted := by
  unfold linkEvents
  congr 1
  induction l with
  | nil => rfl
  | cons t l ih => simp [List.filterMap_cons, linkCallOf, ih]

theorem linkEvents_response (count : Nat) (op : PolicyOp) (l : List (List String)) :
    ∀ ev ∈ linkEvents count op l, ev.response = none := by
  intro ev hev
  obtain ⟨c, _, rfl⟩ := List.mem_map.1 hev
  rfl

theorem relationshipEvents_response (l : List (List String)) :
    ∀ ev ∈ relationshipEvents l, ev.response = none := by
  intro ev hev
  obtain ⟨c, _, rfl⟩ := List.mem_map.1 hev
  rfl

/-- The first tuple that is too short is determined by the list. -/
theorem first_short_unique {count : Nat} {pre pre2 post post2 : List (List String)}
    {t t2 : List String} (h : pre ++ t :: post = pre2 ++ t2 :: post2)
    (hpre : ∀ p ∈ pre, count ≤ p.length) (ht : t.length < count)
    (hpre2 : ∀ p ∈ pre2, count ≤ p.length) (ht2 : t2.length < count) :
    pre = pre2 := by
  induction pre generalizing pre2 with
  | nil =>
    cases pre2 with
    | nil => rfl
    | cons p pre2 =>
      simp only [List.nil_append, List.cons_append, List.cons.injEq] at h
      have := hpre2 p (List.mem_cons_self _ _)
      rw [← h.1] at this
      omega
  | cons q pre ih =>
    cases pre2 with
    | nil =>
      simp only [List.nil_append, List.cons_append, List.cons.injEq] at h
      have := hpre q (List.mem_cons_self _ _)
      rw [h.1] at this
      omega
    | cons p pre2 =>
      simp only [List.cons_append, List.cons.injEq] at h
      rw [h.1, ih h.2 (fun x hx => hpre x (List.mem_cons_of_mem _ hx))
        (fun x hx => hpre2 x (List.mem_cons_of_mem _ hx))]

/-- On a capability that accepts every call a run succeeds or stops at a short tuple. -/
theorem RunShape.of_accepts {rm : RoleManager σ} (hrm : Accepts rm) {count : Nat} {op : PolicyOp}
    {rules : List (List String)} {out : Outcome} {tr : List Event}
    (h : RunShape count op rules out tr) (hans : ∀ ev ∈ tr, Answered rm ev) :
    (out = Outcome.nil ∧ (∀ t ∈ rules, count ≤ t.length) ∧
        tr = linkEvents count op rules ++
          (if op = PolicyOp.PolicyAdd then relationshipEvents rules else []))
    ∨ (∃ pre t post, rules = pre ++ t :: post ∧ (∀ p ∈ pre, count ≤ p.length) ∧
        t.length < count ∧ out = Outcome.error errGroupingPolicy ∧
        tr = linkEvents count op pre) := by
  rcases h with h | h | ⟨pre, t, post, c, e, _, _, _, _, _, htr⟩ | ⟨_, pre, t, post, e, _, _, _, htr⟩
  · exact Or.inl h
  · exact Or.inr h
  · have := (hans ⟨c, some e⟩ (by simp [htr])).response_eq_none hrm
    simp at this
  · have := (hans ⟨relationshipOf t, some e⟩ (by simp [htr])).response_eq_none hrm
    simp at this

/-- A run over tuples that are all long enough, on a capability that accepts every call. -/
theorem RunShape.of_accepts_valid {rm : RoleManager σ} (hrm : Accepts rm) {count : Nat}
    {op : PolicyOp} {rules : List (List String)} {out : Outcome} {tr : List Event}
    (h : RunShape count op rules out tr) (hans : ∀ ev ∈ tr, Answered rm ev)
    (hvalid : ∀ t ∈ rules, count ≤ t.length) :
    out = Outcome.nil ∧ tr = linkEvents count op rules ++
      (if op = PolicyOp.PolicyAdd then relationshipEvents rules else []) := by
  rcases h.of_accepts hrm hans with ⟨ho, _, htr⟩ | ⟨pre, t, post, hr, _, ht, _, _⟩
  · exact ⟨ho, htr⟩
  · have := hvalid t (by simp [hr])
    omega

/-- A run over tuples the first short one of which is `t`, on a capability that accepts every
call. -/
theorem RunShape.of_accepts_short {rm : RoleManager σ} (hrm : Accepts rm) {count : Nat}
    {op : PolicyOp} {rules : List (List String)} {out : Outcome} {tr : List Event}
    (h : RunShape count op rules out tr) (hans : ∀ ev ∈ tr, Answered rm ev)
    {pre post : List (List String)} {t : List String} (hr : rules = pre ++ t :: post)
    (hpre : ∀ p ∈ pre, count ≤ p.length) (ht : t.length < count) :
    out = Outcome.error errGroupingPolicy ∧ tr = linkEvents count op pre := by
  rcases h.of_accepts hrm hans with ⟨_, hall, _⟩ | ⟨pre2, t2, post2, hr2, hpre2, ht2, ho, htr⟩
  · have := hall t (by simp [hr])
    omega
  · have hpp : pre = pre2 := first_short_unique (hr.symm.trans hr2) hpre ht hpre2 ht2
    subst hpp
    exact ⟨ho, htr⟩

theorem acceptAll_accepts : Accepts acceptAll := fun _ _ _ _ => ⟨rfl, rfl, rfl⟩

/-! ## Locating a tuple in a run -/

/-- Two ways of splitting one list at an element: one split point lies before, at, or after
the other. -/
theorem split_trichotomy {α : Type} {pre pre2 post post2 : List α} {t t2 : α}
    (h : pre ++ t :: post = pre2 ++ t2 :: post2) :
    (∃ mid, pre = pre2 ++ t2 :: mid) ∨ (pre = pre2 ∧ t = t2 ∧ post = post2) ∨
      (∃ mid, pre2 = pre ++ t :: mid) := by
  induction pre generalizing pre2 with
  | nil =>
    cases pre2 with
    | nil =>
      simp only [List.nil_append, List.cons.injEq] at h
      exact Or.inr (Or.inl ⟨rfl, h.1, h.2⟩)
    | cons p pre2 =>
      simp only [List.nil_append, List.cons_append, List.cons.injEq] at h
      exact Or.inr (Or.inr ⟨pre2, by simp [h.1]⟩)
  | cons q pre ih =>
    cases pre2 with
    | nil =>
      simp only [List.nil_append, List.cons_append, List.cons.injEq] at h
      exact Or.inl ⟨pre, by simp [h.1]⟩
    | cons p pre2 =>
      simp only [List.cons_append, List.cons.injEq] at h
      rcases ih h.2 with ⟨mid, hm⟩ | ⟨h1, h2, h3⟩ | ⟨mid, hm⟩
      · exact Or.inl ⟨mid, by simp [h.1, hm]⟩
      · exact Or.inr (Or.inl ⟨by simp [h.1, h1], h2, h3⟩)
      · exact Or.inr (Or.inr ⟨mid, by simp [h.1, hm]⟩)

theorem linkEvents_append (count : Nat) (op : PolicyOp) (l1 l2 : List (List String)) :
    linkEvents count op (l1 ++ l2) = linkEvents count op l1 ++ linkEvents count op l2 := by
  simp [linkEvents, List.filterMap_append]

theorem linkEvents_cons {count : Nat} {op : PolicyOp} {t : List String} {c : Call}
    (h : linkCallOf op count t = some c) (l : List (List String)) :
    linkEvents count op (t :: l) = accepted c :: linkEvents count op l := by
  simp [linkEvents, List.filterMap_cons, h]

theorem linkEvents_length {count : Nat} {op : PolicyOp} {t : List String} {c : Call}
    (h : linkCallOf op count t = some c) (l : List (List String)) :
    (linkEvents count op l).length = l.length := by
  cases op with
  | PolicyAdd => simp [linkEvents_add]
  | PolicyRemove => simp [linkEvents_remove]
  | other tag => simp [linkCallOf] at h

/-- The call at the position of a tuple, in a list of events that starts with the link events
of the tuples up to it. -/
theorem call_at_tuple {count : Nat} {op : PolicyOp} {t : List String} {c : Call}
    (h : linkCallOf op count t = some c) (pre mid : List (List String)) (rest : List Event) :
    ((linkEvents count op (pre ++ t :: mid) ++ rest).map Event.call)[pre.length]? = some c := by
  rw [linkEvents_append, linkEvents_cons h, List.append_assoc, List.map_append,
    List.getElem?_append_right (by simp [linkEvents_length h])]
  simp [linkEvents_length h, accepted]

/-- In any run, when the tuples before `t` and `t` itself are long enough and no call recorded
before the position of `t` failed, the call at the position of `t` is its link call. -/
theorem RunShape.link_call_at {count : Nat} {op : PolicyOp} {rules : List (List String)}
    {out : Outcome} {tr : List Event} (h : RunShape count op rules out tr)
    {pre post : List (List String)} {t : List String} {c : Call}
    (hr : rules = pre ++ t :: post) (hpre : ∀ p ∈ pre, count ≤ p.length)
    (ht : count ≤ t.length) (hcall : linkCallOf op count t = some c)
    (hresp : ∀ ev ∈ tr.take pre.length, ev.response = none) :
    (tr.map Event.call)[pre.length]? = some c := by
  rcases h with ⟨_, _, htr⟩ | ⟨pre2, t2, post2, hr2, _, ht2, _, htr⟩ |
      ⟨pre2, t2, post2, c2, e, hr2, _, _, hcall2, _, htr⟩ | ⟨_, pre2, t2, post2, e, _, _, _, htr⟩
  · rw [htr, hr]
    exact call_at_tuple hcall pre post _
  · rcases split_trichotomy (hr.symm.trans hr2) with ⟨mid, hm⟩ | ⟨_, h2, _⟩ | ⟨mid, hm⟩
    · have := hpre t2 (by simp [hm])
      omega
    · rw [h2] at ht
      omega
    · rw [htr, hm]
      simpa using call_at_tuple hcall pre mid []
  · rcases split_trichotomy (hr.symm.trans hr2) with ⟨mid, hm⟩ | ⟨h1, h2, _⟩ | ⟨mid, hm⟩
    · have hlen : tr.length ≤ pre.length := by
        rw [htr, hm]
        simp [linkEvents_length hcall2]
      have := hresp ⟨c2, some e⟩ (by rw [List.take_of_length_le hlen, htr]; simp)
      simp at this
    · subst h1 h2
      rw [hcall] at hcall2
      rw [htr, List.map_append, List.getElem?_append_right (by simp [linkEvents_length hcall])]
      simp [linkEvents_length hcall, Option.some.inj hcall2]
    · rw [htr, hm]
      exact call_at_tuple hcall pre mid _
  · rw [htr, hr, List.append_assoc]
    exact call_at_tuple hcall pre post _

/-! ## Failures -/

theorem relationshipEvents_append (l1 l2 : List (List String)) :
    relationshipEvents (l1 ++ l2) = relationshipEvents l1 ++ relationshipEvents l2 := by
  simp [relationshipEvents]

/-- A list of accepted events followed by one event, split at a failed event: the failed event
is the last one. -/
theorem split_at_failure {A before after : List Event} {f ev : Event}
    (hA : ∀ a ∈ A, a.response = none) (h : A ++ [f] = before ++ ev :: after)
    (hev : ev.response ≠ none) : before = A ∧ ev = f ∧ after = [] := by
  induction A generalizing before with
  | nil =>
    cases before with
    | nil =>
      simp only [List.nil_append, List.cons.injEq] at h
      exact ⟨rfl, h.1.symm, h.2.symm⟩
    | cons b before =>
      simp only [List.nil_append, List.cons_append, List.cons.injEq] at h
      exact absurd h.2 (by simp)
  | cons a A ih =>
    cases before with
    | nil =>
      simp only [List.nil_append, List.cons_append, List.cons.injEq] at h
      exact absurd (hA a (List.mem_cons_self _ _)) (h.1 ▸ hev)
    | cons b before =>
      simp only [List.cons_append, List.cons.injEq] at h
      obtain ⟨h1, h2, h3⟩ := ih (fun x hx => hA x (List.mem_cons_of_mem _ hx)) h.2
      exact ⟨by rw [h.1, h1], h2, h3⟩

/-- In any run, a failed call is the last call, all calls before it were accepted, and its
error is the outcome. -/
theorem RunShape.failure_last {count : Nat} {op : PolicyOp} {rules : List (List String)}
    {out : Outcome} {tr : List Event} (h : RunShape count op rules out tr)
    {before after : List Event} {ev : Event} {e : GoError}
    (htr : tr = before ++ ev :: after) (hev : ev.response = some e) :
    out = Outcome.error e ∧ after = [] ∧ ∀ b ∈ before, b.response = none := by
  have hne : ev.response ≠ none := by simp [hev]
  have hmem : ev ∈ tr := by simp [htr]
  rcases h with ⟨_, _, h1⟩ | ⟨_, _, _, _, _, _, _, h1⟩ |
      ⟨pre, t, post, c, e2, _, _, _, _, ho, h1⟩ | ⟨_, pre, t, post, e2, _, _, ho, h1⟩
  · rw [h1] at hmem
    rcases List.mem_append.1 hmem with hm | hm
    · exact absurd (linkEvents_response _ _ _ ev hm) hne
    · split at hm
      · exact absurd (relationshipEvents_response _ ev hm) hne
      · simp at hm
  · rw [h1] at hmem
    exact absurd (linkEvents_response _ _ _ ev hmem) hne
  · obtain ⟨hb, hf, ha⟩ := split_at_failure (linkEvents_response _ _ _) (h1.symm.trans htr) hne
    subst hf
    simp only at hev
    refine ⟨by rw [ho, Option.some.inj hev], ha, ?_⟩
    rw [hb]
    exact linkEvents_response _ _ _
  · have hacc : ∀ a ∈ linkEvents count op rules ++ relationshipEvents pre, a.response = none := by
      intro a ha
      rcases List.mem_append.1 ha with hm | hm
      · exact linkEvents_response _ _ _ a hm
      · exact relationshipEvents_response _ a hm
    obtain ⟨hb, hf, ha⟩ := split_at_failure hacc (h1.symm.trans htr) hne
    subst hf
    simp only at hev
    refine ⟨by rw [ho, Option.some.inj hev], ha, ?_⟩
    rw [hb]
    exact hacc

theorem linkEvents_kind {count : Nat} {op : PolicyOp} {l : List (List String)} {ev : Event}
    (h : ev ∈ linkEvents count op l) : linkKind op = some ev.call.kind := by
  cases op with
  | PolicyAdd =>
    rw [linkEvents_add] at h
    simp only [List.mem_map] at h
    obtain ⟨c, ⟨t, _, rfl⟩, rfl⟩ := h
    rfl
  | PolicyRemove =>
    rw [linkEvents_remove] at h
    simp only [List.mem_map] at h
    obtain ⟨c, ⟨t, _, rfl⟩, rfl⟩ := h
    rfl
  | other tag => simp [linkEvents, linkCallOf] at h

theorem linkCallOf_kind {count : Nat} {op : PolicyOp} {t : List String} {c : Call}
    (h : linkCallOf op count t = some c) : linkKind op = some c.kind := by
  cases op with
  | PolicyAdd =>
    simp only [linkCallOf, Option.some.injEq] at h
    subst h
    rfl
  | PolicyRemove =>
    simp only [linkCallOf, Option.some.injEq] at h
    subst h
    rfl
  | other tag => simp [linkCallOf] at h

theorem relationshipEvents_kind {l : List (List String)} {ev : Event}
    (h : ev ∈ relationshipEvents l) : ev.call.kind = CallKind.buildRelationship := by
  simp only [relationshipEvents, List.mem_map] at h
  obtain ⟨c, ⟨t, _, rfl⟩, rfl⟩ := h
  rfl

/-- In any run, every call is the link call of the operation tag or, when links are added, a
`BuildRelationship` call. -/
theorem RunShape.call_kind {count : Nat} {op : PolicyOp} {rules : List (List String)}
    {out : Outcome} {tr : List Event} (h : RunShape count op rules out tr) {ev : Event}
    (hev : ev ∈ tr) :
    linkKind op = some ev.call.kind ∨
      (op = PolicyOp.PolicyAdd ∧ ev.call.kind = CallKind.buildRelationship) := by
  rcases h with ⟨_, _, h1⟩ | ⟨_, _, _, _, _, _, _, h1⟩ |
      ⟨pre, t, post, c, e2, _, _, _, hcall, _, h1⟩ | ⟨hop, pre, t, post, e2, _, _, _, h1⟩
  · rw [h1] at hev
    rcases List.mem_append.1 hev with hm | hm
    · exact Or.inl (linkEvents_kind hm)
    · split at hm
      · next hop => exact Or.inr ⟨hop, relationshipEvents_kind hm⟩
      · simp at hm
  · rw [h1] at hev
    exact Or.inl (linkEvents_kind hev)
  · rw [h1] at hev
    rcases List.mem_append.1 hev with hm | hm
    · exact Or.inl (linkEvents_kind hm)
    · rw [List.mem_singleton.1 hm]
      exact Or.inl (linkCallOf_kind hcall)
  · rw [h1] at hev
    rcases List.mem_append.1 hev with hm | hm
    · rcases List.mem_append.1 hm with hm | hm
      · exact Or.inl (linkEvents_kind hm)
      · exact Or.inr ⟨hop, relationshipEvents_kind hm⟩
    · rw [List.mem_singleton.1 hm]
      exact Or.inr ⟨hop, rfl⟩

theorem linkEvents_summary (count : Nat) (op : PolicyOp) (l : List (List String)) :
    (linkEvents count op l).map Event.summary = acceptedLinks op l := by
  cases op with
  | PolicyAdd =>
    rw [linkEvents_add]
    simp only [acceptedLinks, linkKind, List.map_map]
    rfl
  | PolicyRemove =>
    rw [linkEvents_remove]
    simp only [acceptedLinks, linkKind, List.map_map]
    rfl
  | other tag => simp [linkEvents, linkCallOf, acceptedLinks, linkKind]

theorem relationshipEvents_summary (l : List (List String)) :
    (relationshipEvents l).map Event.summary = acceptedRelationships l := by
  simp only [relationshipEvents, acceptedRelationships, List.map_map]
  rfl

theorem linkCallOf_summary {count : Nat} {op : PolicyOp} {t : List String} {c : Call}
    (h : linkCallOf op count t = some c) : ∃ k, linkKind op = some k ∧ c.head = headOf k t := by
  cases op with
  | PolicyAdd =>
    simp only [linkCallOf, Option.some.injEq] at h
    subst h
    exact ⟨_, rfl, rfl⟩
  | PolicyRemove =>
    simp only [linkCallOf, Option.some.injEq] at h
    subst h
    exact ⟨_, rfl, rfl⟩
  | other tag => simp [linkCallOf] at h

/-- A run that does not return `nil` is a failed run. -/
theorem RunShape.failed {count : Nat} {op : PolicyOp} {rules : List (List String)}
    {out : Outcome} {tr : List Event} (h : RunShape count op rules out tr)
    (hout : out ≠ Outcome.nil) : FailedRun count op rules tr := by
  rcases h with ⟨ho, _, _⟩ | ⟨pre, t, post, hr, hpre, ht, _, h1⟩ |
      ⟨pre, t, post, c, e, hr, hpre, ht, hcall, _, h1⟩ | ⟨hop, pre, t, post, e, hr, hall, _, h1⟩
  · exact absurd ho hout
  · exact ⟨pre, t, post, hr, hpre, Or.inl ⟨ht, by rw [h1, linkEvents_summary]⟩⟩
  · obtain ⟨k, hk, hhead⟩ := linkCallOf_summary hcall
    refine ⟨pre, t, post, hr, hpre, Or.inr (Or.inl ⟨ht, k, e, hk, ?_⟩)⟩
    rw [h1, List.map_append, linkEvents_summary]
    simp [Event.summary, hhead]
  · refine ⟨pre, t, post, hr, fun p hp => hall p (by simp [hr, hp]),
      Or.inr (Or.inr ⟨hop, hall, e, ?_⟩)⟩
    rw [h1, List.map_append, List.map_append, linkEvents_summary, relationshipEvents_summary]
    rfl

theorem fullTrace_of_lt (ast : Assertion (σ × List Event) Logger) (rm : RoleManager σ) (s : σ)
    (hc : countUnderscore ast.Value < 2) : fullTrace ast rm s = [] := by
  simp [fullTrace, buildRoleLinks, hc]

theorem incrementalTrace_of_lt (ast : Assertion (σ × List Event) Logger) (rm : RoleManager σ)
    (op : PolicyOp) (rules : List (List String)) (s : σ)
    (hc : countUnderscore ast.Value < 2) : incrementalTrace ast rm op rules s = [] := by
  simp [incrementalTrace, buildIncrementalRoleLinks, hc]

/-! ## The copied map -/

/-- Looking a key up after the copy loop: the value of the entry copied for it, else the value
in the map the loop started from. -/
theorem copyPolicyMap_lookup (entries : List (Sigma fun _ : String => Int))
    (hnd : entries.NodupKeys) (m : AList (fun _ : String => Int)) (k : String) :
    (copyPolicyMap entries m).lookup k =
      match entries.dlookup k with
      | some v => some v
      | none => m.lookup k := by
  induction entries generalizing m with
  | nil => rfl
  | cons kv rest ih =>
    obtain ⟨a, b⟩ := kv
    rw [List.nodupKeys_cons] at hnd
    have hstep : copyPolicyMap (⟨a, b⟩ :: rest) m = copyPolicyMap rest (m.insert a b) := rfl
    rw [hstep, ih hnd.2]
    by_cases hk : k = a
    · subst hk
      have hnone : rest.dlookup k = none := List.dlookup_eq_none.2 hnd.1
      simp [hnone, List.dlookup_cons_eq, AList.lookup_insert]
    · have hne : rest.dlookup k = List.dlookup k (⟨a, b⟩ :: rest) :=
        (List.dlookup_cons_ne rest ⟨a, b⟩ hk).symm
      rw [← hne, AList.lookup_insert_ne hk]

theorem copy_lookup (ast : Assertion σ Logger) (k : String) :
    (copy ast).PolicyMap.lookup k = ast.PolicyMap.lookup k := by
  have h := copyPolicyMap_lookup ast.PolicyMap.entries ast.PolicyMap.nodupKeys ∅ k
  have hl : ast.PolicyMap.lookup k = ast.PolicyMap.entries.dlookup k := rfl
  rw [hl]
  show (copyPolicyMap ast.PolicyMap.entries ∅).lookup k = _
  rw [h]
  cases ast.PolicyMap.entries.dlookup k <;> simp

/-! ## Properties of the build functions and of `copy` -/

/-- C1. Full rebuild ordering: when the definition has `count ≥ 2` placeholders, every tuple of
the policy has at least `count` fields and the capability accepts every call, `buildRoleLinks`
returns `nil` and issues exactly `2N` calls: first one `AddLink` per tuple, in tuple order, with
subject field 0 and role field 1, then one `BuildRelationship` per tuple, in tuple order, with
subject field 0 and role field 1. -/
theorem buildRoleLinks_ordering (ast : Assertion (σ × List Event) Logger) (rm : RoleManager σ)
    (s : σ) (hc : 2 ≤ countUnderscore ast.Value)
    (hvalid : ∀ t ∈ ast.Policy, countUnderscore ast.Value ≤ t.length) (hrm : Accepts rm) :
    fullOutcome ast rm s = Outcome.nil ∧
    (fullTrace ast rm s).length = 2 * ast.Policy.length ∧
    (fullTrace ast rm s).map (fun ev => ev.call.head) =
      ast.Policy.map (headOf CallKind.addLink) ++
        ast.Policy.map (headOf CallKind.buildRelationship) ∧
    ∀ ev ∈ fullTrace ast rm s, ev.response = none := by
  obtain ⟨hshape, hans⟩ := full_run ast rm s hc
  obtain ⟨ho, htr⟩ := hshape.of_accepts_valid hrm hans hvalid
  refine ⟨ho, ?_, ?_, fun ev hev => (hans ev hev).response_eq_none hrm⟩
  · rw [htr]
    simp [linkEvents_add, relationshipEvents]
    omega
  · rw [htr]
    simp only [if_true, linkEvents_add, relationshipEvents, List.map_append, List.map_map]
    rfl

/-- C1, at the scenario of the specification: definition `"_, _"`, tuples
`[["alice","admin"],["bob","editor"]]`. -/
theorem buildRoleLinks_ordering_witness :
    fullOutcome (mkAssertion "_, _" [["alice", "admin"], ["bob", "editor"]]) acceptAll ()
      = Outcome.nil ∧
    (fullTrace (mkAssertion "_, _" [["alice", "admin"], ["bob", "editor"]]) acceptAll ()).length
      = 2 * 2 ∧
    (fullTrace (mkAssertion "_, _" [["alice", "admin"], ["bob", "editor"]]) acceptAll ()).map
        (fun ev => ev.call.head) =
      [(CallKind.addLink, "alice", "admin"), (CallKind.addLink, "bob", "editor"),
       (CallKind.buildRelationship, "alice", "admin"),
       (CallKind.buildRelationship, "bob", "editor")] ∧
    ∀ ev ∈ fullTrace (mkAssertion "_, _" [["alice", "admin"], ["bob", "editor"]]) acceptAll (),
      ev.response = none :=
  buildRoleLinks_ordering (mkAssertion "_, _" [["alice", "admin"], ["bob", "editor"]])
    acceptAll () (by decide) (by decide) acceptAll_accepts

/-- C2. At definition `"_, _, _"` and tuple `["alice","admin","tenant1","extra"]` the
`AddLink` call gets the truncated tuple, but the `BuildRelationship` call of the second pass,
in `buildRoleLinks` and in `buildIncrementalRoleLinks` with operation Add, gets the field at
index 3 as well: the second loop ranges over the stored tuples, not the truncated ones. -/
theorem buildRelationship_receives_excess_fields :
    (fullTrace (mkAssertion "_, _, _" [["alice", "admin", "tenant1", "extra"]])
        acceptAll ()).map Event.call =
      [Call.AddLink "alice" "admin" ["tenant1"],
       Call.BuildRelationship "alice" "admin" ["tenant1", "extra"]] ∧
    (incrementalTrace (mkAssertion "_, _, _" []) acceptAll PolicyOp.PolicyAdd
        [["alice", "admin", "tenant1", "extra"]] ()).map Event.call =
      [Call.AddLink "alice" "admin" ["tenant1"],
       Call.BuildRelationship "alice" "admin" ["tenant1", "extra"]] := by
  decide

/-- C3. Truncation in the link phase, for any capability: when the definition has `count ≥ 2`
placeholders, the tuples before `t` and `t` itself have at least `count` fields, and no call
made before the position of `t` failed (so that `t` is reached), the call made at the position
of `t` is `AddLink` (full rebuild, incremental Add) resp. `DeleteLink` (incremental Remove)
with subject `t[0]`, role `t[1]` and domain qualifiers exactly the fields `2 .. count-1` of
`t`. -/
theorem link_call_truncated (ast : Assertion (σ × List Event) Logger) (rm : RoleManager σ)
    (s : σ) (pre post : List (List String)) (t : List String)
    (hc : 2 ≤ countUnderscore ast.Value)
    (hpre : ∀ p ∈ pre, countUnderscore ast.Value ≤ p.length)
    (ht : countUnderscore ast.Value ≤ t.length) :
    (ast.Policy = pre ++ t :: post →
      (∀ ev ∈ (fullTrace ast rm s).take pre.length, ev.response = none) →
      ((fullTrace ast rm s).map Event.call)[pre.length]? =
        some (Call.AddLink (t.getD 0 "") (t.getD 1 "")
          ((t.take (countUnderscore ast.Value)).drop 2))) ∧
    ((∀ ev ∈ (incrementalTrace ast rm PolicyOp.PolicyAdd (pre ++ t :: post) s).take pre.length,
        ev.response = none) →
      ((incrementalTrace ast rm PolicyOp.PolicyAdd (pre ++ t :: post) s).map
          Event.call)[pre.length]? =
        some (Call.AddLink (t.getD 0 "") (t.getD 1 "")
          ((t.take (countUnderscore ast.Value)).drop 2))) ∧
    ((∀ ev ∈ (incrementalTrace ast rm PolicyOp.PolicyRemove (pre ++ t :: post) s).take
        pre.length, ev.response = none) →
      ((incrementalTrace ast rm PolicyOp.PolicyRemove (pre ++ t :: post) s).map
          Event.call)[pre.length]? =
        some (Call.DeleteLink (t.getD 0 "") (t.getD 1 "")
          ((t.take (countUnderscore ast.Value)).drop 2))) := by
  refine ⟨fun hpol hresp => ?_, fun hresp => ?_, fun hresp => ?_⟩
  · exact (full_run ast rm s hc).1.link_call_at hpol hpre ht rfl hresp
  · exact (incremental_run ast rm PolicyOp.PolicyAdd _ s hc).1.link_call_at rfl hpre ht rfl hresp
  · exact (incremental_run ast rm PolicyOp.PolicyRemove _ s hc).1.link_call_at rfl hpre ht rfl
      hresp

/-- C3, at the scenario of the specification: definition `"_, _, _"`, tuple
`["alice","admin","tenant1","extra"]`. -/
theorem link_call_truncated_witness :
    ((fullTrace (mkAssertion "_, _, _" [["alice", "admin", "tenant1", "extra"]])
        acceptAll ()).map Event.call)[0]? = some (Call.AddLink "alice" "admin" ["tenant1"]) ∧
    ((incrementalTrace (mkAssertion "_, _, _" [["alice", "admin", "tenant1", "extra"]])
        acceptAll PolicyOp.PolicyAdd [["alice", "admin", "tenant1", "extra"]] ()).map
          Event.call)[0]? = some (Call.AddLink "alice" "admin" ["tenant1"]) ∧
    ((incrementalTrace (mkAssertion "_, _, _" [["alice", "admin", "tenant1", "extra"]])
        acceptAll PolicyOp.PolicyRemove [["alice", "admin", "tenant1", "extra"]] ()).map
          Event.call)[0]? = some (Call.DeleteLink "alice" "admin" ["tenant1"]) :=
  have h := link_call_truncated
    (mkAssertion "_, _, _" [["alice", "admin", "tenant1", "extra"]]) acceptAll () [] []
    ["alice", "admin", "tenant1", "extra"] (by decide) (by decide) (by decide)
  ⟨h.1 rfl (by decide), h.2.1 (by decide), h.2.2 (by decide)⟩

/-- C4. Shape error: when the definition has `count ≥ 2` placeholders, the capability accepts
every call, and `t` is the first tuple with fewer than `count` fields (every tuple of `pre`,
the tuples before it, has at least `count`), the build returns the error
"grouping policy elements do not meet role definition" and the calls issued are exactly the
`AddLink` (resp. `DeleteLink`) calls of the tuples of `pre`, in order, all accepted: no call
for `t` or a later tuple, and no `BuildRelationship` call. -/
theorem short_tuple_shape_error (ast : Assertion (σ × List Event) Logger) (rm : RoleManager σ)
    (s : σ) (pre post : List (List String)) (t : List String)
    (hc : 2 ≤ countUnderscore ast.Value)
    (hpre : ∀ p ∈ pre, countUnderscore ast.Value ≤ p.length)
    (ht : t.length < countUnderscore ast.Value) (hrm : Accepts rm) :
    (ast.Policy = pre ++ t :: post →
      fullOutcome ast rm s = Outcome.error errGroupingPolicy ∧
      fullTrace ast rm s = (pre.map (addLinkOf (countUnderscore ast.Value))).map accepted) ∧
    (incrementalOutcome ast rm PolicyOp.PolicyAdd (pre ++ t :: post) s
        = Outcome.error errGroupingPolicy ∧
      incrementalTrace ast rm PolicyOp.PolicyAdd (pre ++ t :: post) s
        = (pre.map (addLinkOf (countUnderscore ast.Value))).map accepted) ∧
    (incrementalOutcome ast rm PolicyOp.PolicyRemove (pre ++ t :: post) s
        = Outcome.error errGroupingPolicy ∧
      incrementalTrace ast rm PolicyOp.PolicyRemove (pre ++ t :: post) s
        = (pre.map (deleteLinkOf (countUnderscore ast.Value))).map accepted) := by
  refine ⟨fun hpol => ?_, ?_, ?_⟩
  · obtain ⟨hshape, hans⟩ := full_run ast rm s hc
    simpa [linkEvents_add] using hshape.of_accepts_short hrm hans hpol hpre ht
  · obtain ⟨hshape, hans⟩ := incremental_run ast rm PolicyOp.PolicyAdd (pre ++ t :: post) s hc
    simpa [linkEvents_add] using hshape.of_accepts_short hrm hans rfl hpre ht
  · obtain ⟨hshape, hans⟩ := incremental_run ast rm PolicyOp.PolicyRemove (pre ++ t :: post) s hc
    simpa [linkEvents_remove] using hshape.of_accepts_short hrm hans rfl hpre ht

/-- C4, at the scenario of the specification: tuple `["alice"]` against `count = 2` gives the
shape error and no capability call. -/
theorem short_tuple_shape_error_witness :
    (fullOutcome (mkAssertion "_, _" [["alice"]]) acceptAll ()
        = Outcome.error errGroupingPolicy ∧
      fullTrace (mkAssertion "_, _" [["alice"]]) acceptAll () = []) ∧
    (incrementalOutcome (mkAssertion "_, _" [["alice"]]) acceptAll PolicyOp.PolicyAdd
        [["alice"]] () = Outcome.error errGroupingPolicy ∧
      incrementalTrace (mkAssertion "_, _" [["alice"]]) acceptAll PolicyOp.PolicyAdd
        [["alice"]] () = []) ∧
    (incrementalOutcome (mkAssertion "_, _" [["alice"]]) acceptAll PolicyOp.PolicyRemove
        [["alice"]] () = Outcome.error errGroupingPolicy ∧
      incrementalTrace (mkAssertion "_, _" [["alice"]]) acceptAll PolicyOp.PolicyRemove
        [["alice"]] () = []) :=
  have h := short_tuple_shape_error (mkAssertion "_, _" [["alice"]]) acceptAll () [] []
    ["alice"] (by decide) (by decide) (by decide) acceptAll_accepts
  ⟨h.1 rfl, h.2.1, h.2.2⟩

/-- C5. Configuration error: when the definition has fewer than 2 placeholders, `buildRoleLinks`
and `buildIncrementalRoleLinks` (any operation tag, any batch, any capability) return the error
"the number of \"_\" in role definition should be at least 2", the capability is left in the
state it was in, and no call is recorded. -/
theorem too_few_placeholders (ast : Assertion (σ × List Event) Logger) (rm : RoleManager σ)
    (op : PolicyOp) (rules : List (List String)) (s : σ)
    (hc : countUnderscore ast.Value < 2) :
    (fullOutcome ast rm s = Outcome.error errRoleDefinition ∧
      fullTrace ast rm s = [] ∧
      (buildRoleLinks ast (traced rm) (s, [])).2.2.1 = s) ∧
    (incrementalOutcome ast rm op rules s = Outcome.error errRoleDefinition ∧
      incrementalTrace ast rm op rules s = [] ∧
      (buildIncrementalRoleLinks ast (traced rm) op rules (s, [])).2.2.1 = s) := by
  simp [fullOutcome, fullTrace, incrementalOutcome, incrementalTrace, buildRoleLinks,
    buildIncrementalRoleLinks, hc]

/-- C5, at definition `"_"` (one placeholder) with a non-empty policy and batch. -/
theorem too_few_placeholders_witness :
    (fullOutcome (mkAssertion "_" [["alice", "admin"]]) acceptAll ()
        = Outcome.error ⟨"the number of \"_\" in role definition should be at least 2"⟩ ∧
      fullTrace (mkAssertion "_" [["alice", "admin"]]) acceptAll () = [] ∧
      (buildRoleLinks (mkAssertion "_" [["alice", "admin"]]) (traced acceptAll) ((), [])).2.2.1
        = ()) ∧
    (incrementalOutcome (mkAssertion "_" [["alice", "admin"]]) acceptAll PolicyOp.PolicyRemove
        [["bob", "editor"]] () = Outcome.error errRoleDefinition ∧
      incrementalTrace (mkAssertion "_" [["alice", "admin"]]) acceptAll PolicyOp.PolicyRemove
        [["bob", "editor"]] () = [] ∧
      (buildIncrementalRoleLinks (mkAssertion "_" [["alice", "admin"]]) (traced acceptAll)
        PolicyOp.PolicyRemove [["bob", "editor"]] ((), [])).2.2.1 = ()) :=
  too_few_placeholders (mkAssertion "_" [["alice", "admin"]]) acceptAll PolicyOp.PolicyRemove
    [["bob", "editor"]] () (by decide)

/-- C6. Capability failures are propagated verbatim and abort the call, for any capability,
any definition, any operation tag and any tuples: when a recorded call was answered with an
error `e`, the build returns exactly `e`, no call is recorded after it, and every call before
it was accepted (it is the first to fail).  Nothing is undone: a full rebuild and an update
with a tag other than Remove never issue a `DeleteLink` call. -/
theorem capability_failure_propagated (ast : Assertion (σ × List Event) Logger)
    (rm : RoleManager σ) (s : σ) (op : PolicyOp) (rules : List (List String)) :
    (∀ before ev after e, fullTrace ast rm s = before ++ ev :: after → ev.response = some e →
      fullOutcome ast rm s = Outcome.error e ∧ after = [] ∧ ∀ b ∈ before, b.response = none) ∧
    (∀ before ev after e, incrementalTrace ast rm op rules s = before ++ ev :: after →
      ev.response = some e →
      incrementalOutcome ast rm op rules s = Outcome.error e ∧ after = [] ∧
        ∀ b ∈ before, b.response = none) ∧
    (∀ ev ∈ fullTrace ast rm s, ev.call.kind ≠ CallKind.deleteLink) ∧
    (op ≠ PolicyOp.PolicyRemove →
      ∀ ev ∈ incrementalTrace ast rm op rules s, ev.call.kind ≠ CallKind.deleteLink) := by
  by_cases hc : 2 ≤ countUnderscore ast.Value
  · have hfull := (full_run ast rm s hc).1
    have hinc := (incremental_run ast rm op rules s hc).1
    refine ⟨fun before ev after e htr hev => hfull.failure_last htr hev,
      fun before ev after e htr hev => hinc.failure_last htr hev, ?_, ?_⟩
    · intro ev hev hk
      rcases hfull.call_kind hev with h | ⟨_, h⟩
      · rw [hk] at h
        simp [linkKind] at h
      · rw [hk] at h
        simp at h
    · intro hop ev hev hk
      rcases hinc.call_kind hev with h | ⟨_, h⟩
      · rw [hk] at h
        cases op with
        | PolicyAdd => simp [linkKind] at h
        | PolicyRemove => exact hop rfl
        | other tag => simp [linkKind] at h
      · rw [hk] at h
        simp at h
  · have hlt : countUnderscore ast.Value < 2 := by omega
    rw [fullTrace_of_lt ast rm s hlt, incrementalTrace_of_lt ast rm op rules s hlt]
    simp

/-- C6, on a capability that accepts one call and rejects the next: in the rebuild of two
tuples the second `AddLink` call fails; it is the last call and its error is returned. -/
theorem capability_failure_propagated_witness :
    fullTrace (mkAssertion "_, _" [["alice", "admin"], ["bob", "editor"]]) (rejectAfter 1) 0
      = [⟨Call.AddLink "alice" "admin" [], none⟩] ++
          ⟨Call.AddLink "bob" "editor" [], some ⟨"rejected"⟩⟩ :: [] ∧
    fullOutcome (mkAssertion "_, _" [["alice", "admin"], ["bob", "editor"]]) (rejectAfter 1) 0
      = Outcome.error ⟨"rejected"⟩ :=
  ⟨by decide,
    ((capability_failure_propagated
      (mkAssertion "_, _" [["alice", "admin"], ["bob", "editor"]])
      (rejectAfter 1) 0 PolicyOp.PolicyAdd []).1
      [⟨Call.AddLink "alice" "admin" [], none⟩]
      ⟨Call.AddLink "bob" "editor" [], some ⟨"rejected"⟩⟩ [] ⟨"rejected"⟩ (by decide) rfl).1⟩

/-- C7 as stated fails: tuple 1 is the first (and only) tuple for which a capability call
fails, its `BuildRelationship` call, and yet a call has been issued for tuple 2,
`AddLink("bob","editor")`, in the first pass. -/
theorem fail_fast_counterexample :
    fullOutcome (mkAssertion "_, _" [["alice", "admin"], ["bob", "editor"]])
        rejectRelationship () = Outcome.error ⟨"rejected"⟩ ∧
    fullTrace (mkAssertion "_, _" [["alice", "admin"], ["bob", "editor"]])
        rejectRelationship () =
      [⟨Call.AddLink "alice" "admin" [], none⟩, ⟨Call.AddLink "bob" "editor" [], none⟩,
       ⟨Call.BuildRelationship "alice" "admin" [], some ⟨"rejected"⟩⟩] ∧
    ∃ ev ∈ fullTrace (mkAssertion "_, _" [["alice", "admin"], ["bob", "editor"]])
        rejectRelationship (), ev.call.subject = "bob" ∧ ev.call.role = "editor" := by
  decide

/-- C7, amended. With `count ≥ 2`, a build that does not return `nil` failed at some tuple `t`
whose predecessors `pre` are all long enough, and: if `t` is too short or its link call failed,
the calls issued are the accepted link calls of `pre`, in order (followed by the failed link
call of `t`), so no call of any kind was issued for a later tuple; if the `BuildRelationship`
call of `t` failed, the calls issued are the accepted link calls of all tuples, the accepted
`BuildRelationship` calls of `pre`, and the failed call, so no `BuildRelationship` call was
issued for a later tuple. -/
theorem failure_stops_the_run (ast : Assertion (σ × List Event) Logger) (rm : RoleManager σ)
    (s : σ) (op : PolicyOp) (rules : List (List String))
    (hc : 2 ≤ countUnderscore ast.Value) :
    (fullOutcome ast rm s ≠ Outcome.nil →
      FailedRun (countUnderscore ast.Value) PolicyOp.PolicyAdd ast.Policy (fullTrace ast rm s)) ∧
    (incrementalOutcome ast rm op rules s ≠ Outcome.nil →
      FailedRun (countUnderscore ast.Value) op rules (incrementalTrace ast rm op rules s)) :=
  ⟨fun h => (full_run ast rm s hc).1.failed h,
    fun h => (incremental_run ast rm op rules s hc).1.failed h⟩

/-- C7 amended, on the capability that rejects `BuildRelationship` and on the removal of a
batch whose second tuple is too short. -/
theorem failure_stops_the_run_witness :
    FailedRun 2 PolicyOp.PolicyAdd [["alice", "admin"], ["bob", "editor"]]
      (fullTrace (mkAssertion "_, _" [["alice", "admin"], ["bob", "editor"]])
        rejectRelationship ()) ∧
    FailedRun 2 PolicyOp.PolicyRemove [["alice", "admin"], ["bob"], ["carol", "viewer"]]
      (incrementalTrace (mkAssertion "_, _" [["alice", "admin"], ["bob", "editor"]])
        rejectRelationship PolicyOp.PolicyRemove
        [["alice", "admin"], ["bob"], ["carol", "viewer"]] ()) :=
  have h := failure_stops_the_run (mkAssertion "_, _" [["alice", "admin"], ["bob", "editor"]])
    rejectRelationship () PolicyOp.PolicyRemove
    [["alice", "admin"], ["bob"], ["carol", "viewer"]] (by decide)
  ⟨h.1 (by decide), h.2 (by decide)⟩

/-- C8. Incremental Add: when the definition has `count ≥ 2` placeholders, every tuple of the
batch has at least `count` fields and the capability accepts every call,
`buildIncrementalRoleLinks` with operation Add returns `nil` and issues exactly `2N` calls:
one `AddLink` per batch tuple, in batch order, then one `BuildRelationship` per batch tuple, in
batch order, each with subject field 0 and role field 1 of its tuple.  The calls are those of
the batch, whatever the Assertion's own policy holds, and none is a `DeleteLink`. -/
theorem incremental_add_ordering (ast : Assertion (σ × List Event) Logger)
    (rm : RoleManager σ) (s : σ) (rules : List (List String))
    (hc : 2 ≤ countUnderscore ast.Value)
    (hvalid : ∀ t ∈ rules, countUnderscore ast.Value ≤ t.length) (hrm : Accepts rm) :
    incrementalOutcome ast rm PolicyOp.PolicyAdd rules s = Outcome.nil ∧
    (incrementalTrace ast rm PolicyOp.PolicyAdd rules s).length = 2 * rules.length ∧
    (incrementalTrace ast rm PolicyOp.PolicyAdd rules s).map (fun ev => ev.call.head) =
      rules.map (headOf CallKind.addLink) ++ rules.map (headOf CallKind.buildRelationship) ∧
    ∀ ev ∈ incrementalTrace ast rm PolicyOp.PolicyAdd rules s, ev.response = none := by
  obtain ⟨hshape, hans⟩ := incremental_run ast rm PolicyOp.PolicyAdd rules s hc
  obtain ⟨ho, htr⟩ := hshape.of_accepts_valid hrm hans hvalid
  refine ⟨ho, ?_, ?_, fun ev hev => (hans ev hev).response_eq_none hrm⟩
  · rw [htr]
    simp [linkEvents_add, relationshipEvents]
    omega
  · rw [htr]
    simp only [if_true, linkEvents_add, relationshipEvents, List.map_append, List.map_map]
    rfl

/-- C8, on an Assertion whose policy holds a tuple that is not in the batch. -/
theorem incremental_add_ordering_witness :
    incrementalOutcome (mkAssertion "_, _" [["carol", "viewer"]]) acceptAll PolicyOp.PolicyAdd
      [["alice", "admin"], ["bob", "editor"]] () = Outcome.nil ∧
    (incrementalTrace (mkAssertion "_, _" [["carol", "viewer"]]) acceptAll PolicyOp.PolicyAdd
      [["alice", "admin"], ["bob", "editor"]] ()).length = 2 * 2 ∧
    (incrementalTrace (mkAssertion "_, _" [["carol", "viewer"]]) acceptAll PolicyOp.PolicyAdd
      [["alice", "admin"], ["bob", "editor"]] ()).map (fun ev => ev.call.head) =
      [(CallKind.addLink, "alice", "admin"), (CallKind.addLink, "bob", "editor"),
       (CallKind.buildRelationship, "alice", "admin"),
       (CallKind.buildRelationship, "bob", "editor")] ∧
    ∀ ev ∈ incrementalTrace (mkAssertion "_, _" [["carol", "viewer"]]) acceptAll
      PolicyOp.PolicyAdd [["alice", "admin"], ["bob", "editor"]] (), ev.response = none :=
  incremental_add_ordering (mkAssertion "_, _" [["carol", "viewer"]]) acceptAll ()
    [["alice", "admin"], ["bob", "editor"]] (by decide) (by decide) acceptAll_accepts

/-- C9. Incremental Remove: when the definition has `count ≥ 2` placeholders, every tuple of
the batch has at least `count` fields and the capability accepts every call,
`buildIncrementalRoleLinks` with operation Remove returns `nil` and issues exactly `N` calls,
the i-th being `DeleteLink` with subject, role and qualifiers taken from the first `count`
fields of the i-th batch tuple.  For every input, failing ones included, every call a Remove
issues is a `DeleteLink`: never an `AddLink`, never a `BuildRelationship`. -/
theorem incremental_remove_calls (ast : Assertion (σ × List Event) Logger)
    (rm : RoleManager σ) (s : σ) (rules : List (List String)) :
    (2 ≤ countUnderscore ast.Value →
      (∀ t ∈ rules, countUnderscore ast.Value ≤ t.length) → Accepts rm →
      incrementalOutcome ast rm PolicyOp.PolicyRemove rules s = Outcome.nil ∧
      (incrementalTrace ast rm PolicyOp.PolicyRemove rules s).length = rules.length ∧
      incrementalTrace ast rm PolicyOp.PolicyRemove rules s =
        (rules.map (fun t => Call.DeleteLink (t.getD 0 "") (t.getD 1 "")
          ((t.take (countUnderscore ast.Value)).drop 2))).map accepted) ∧
    (∀ ev ∈ incrementalTrace ast rm PolicyOp.PolicyRemove rules s,
      ev.call.kind = CallKind.deleteLink) := by
  refine ⟨fun hc hvalid hrm => ?_, fun ev hev => ?_⟩
  · obtain ⟨hshape, hans⟩ := incremental_run ast rm PolicyOp.PolicyRemove rules s hc
    obtain ⟨ho, htr⟩ := hshape.of_accepts_valid hrm hans hvalid
    have htr2 : incrementalTrace ast rm PolicyOp.PolicyRemove rules s =
        (rules.map (deleteLinkOf (countUnderscore ast.Value))).map accepted := by
      simpa [linkEvents_remove] using htr
    refine ⟨ho, by simp [htr2], htr2⟩
  · by_cases hc : 2 ≤ countUnderscore ast.Value
    · rcases (incremental_run ast rm PolicyOp.PolicyRemove rules s hc).1.call_kind hev with
        h | ⟨h, _⟩
      · simpa [linkKind] using h.symm
      · simp at h
    · rw [incrementalTrace_of_lt ast rm _ rules s (by omega)] at hev
      simp at hev

/-- C9, on a batch with an over-long tuple, and on a capability that rejects the second call. -/
theorem incremental_remove_calls_witness :
    (incrementalOutcome (mkAssertion "_, _, _" []) acceptAll PolicyOp.PolicyRemove
        [["alice", "admin", "tenant1", "extra"], ["bob", "editor", "tenant2"]] ()
        = Outcome.nil ∧
      (incrementalTrace (mkAssertion "_, _, _" []) acceptAll PolicyOp.PolicyRemove
        [["alice", "admin", "tenant1", "extra"], ["bob", "editor", "tenant2"]] ()).length = 2 ∧
      incrementalTrace (mkAssertion "_, _, _" []) acceptAll PolicyOp.PolicyRemove
        [["alice", "admin", "tenant1", "extra"], ["bob", "editor", "tenant2"]] () =
        [⟨Call.DeleteLink "alice" "admin" ["tenant1"], none⟩,
         ⟨Call.DeleteLink "bob" "editor" ["tenant2"], none⟩]) ∧
    (∀ ev ∈ incrementalTrace (mkAssertion "_, _, _" []) acceptAll PolicyOp.PolicyRemove
        [["alice", "admin", "tenant1", "extra"], ["bob", "editor", "tenant2"]] (),
      ev.call.kind = CallKind.deleteLink) :=
  have h := incremental_remove_calls (mkAssertion "_, _, _" []) acceptAll ()
    [["alice", "admin", "tenant1", "extra"], ["bob", "editor", "tenant2"]]
  ⟨h.1 (by decide) (by decide) acceptAll_accepts, h.2⟩

/-- C10. Copy content: the copy has the same `Key`, `Value`, `Tokens` (element by element),
`Policy` (same tuples in the same order, each equal field by field) and `priorityIndex` as the
original, its `PolicyMap` holds exactly the key-to-index pairs of the original's, and its `RM`
and `logger` are unset whatever the original was bound to. -/
theorem copy_content (ast : Assertion σ Logger) :
    (copy ast).Key = ast.Key ∧
    (copy ast).Value = ast.Value ∧
    (copy ast).Tokens = ast.Tokens ∧
    (copy ast).Policy = ast.Policy ∧
    (∀ k, (copy ast).PolicyMap.lookup k = ast.PolicyMap.lookup k) ∧
    (copy ast).PolicyMap.entries.Perm ast.PolicyMap.entries ∧
    (copy ast).priorityIndex = ast.priorityIndex ∧
    (copy ast).RM = none ∧
    (copy ast).logger = none := by
  refine ⟨rfl, rfl, by simp [copy], by simp [copy], copy_lookup ast, ?_, rfl, rfl, rfl⟩
  refine List.lookup_ext (copy ast).PolicyMap.nodupKeys ast.PolicyMap.nodupKeys ?_
  intro k v
  have h := copy_lookup ast k
  simp only [AList.lookup] at h
  rw [h]

/-! ## Binding, panics, success -/

theorem buildIncrementalRoleLinks_receiver (ast : Assertion σ Logger) (rm : RoleManager σ)
    (op : PolicyOp) (rules : List (List String)) (s : σ) :
    (buildIncrementalRoleLinks ast rm op rules s).2.1 = { ast with RM := some rm } := by
  unfold buildIncrementalRoleLinks
  by_cases hc : countUnderscore ast.Value < 2
  · simp [hc]
  · simp only [hc, ↓reduceIte]
    rcases incrementalLinkLoop rm (countUnderscore ast.Value) op rules s with ⟨_ | o, s1⟩
    · by_cases hop : op = PolicyOp.PolicyAdd
      · simp only [hop, ↓reduceIte]
        rcases relationshipLoop rm rules s1 with ⟨_ | o2, s2⟩ <;> rfl
      · simp [hop]
    · rfl

theorem buildRoleLinks_receiver (ast : Assertion σ Logger) (rm : RoleManager σ) (s : σ) :
    (buildRoleLinks ast rm s).2.1 = { ast with RM := some rm } := by
  rw [buildRoleLinks_eq_incremental]
  exact buildIncrementalRoleLinks_receiver ast rm _ _ s

/-- The outcome of an update on any capability is the outcome observed through the recording
double. -/
theorem buildIncrementalRoleLinks_outcome (ast : Assertion σ Logger) (rm : RoleManager σ)
    (op : PolicyOp) (rules : List (List String)) (s : σ) :
    (buildIncrementalRoleLinks ast rm op rules s).1
      = incrementalOutcome (unbound ast : Assertion (σ × List Event) Logger) rm op rules s :=
  ((buildIncrementalRoleLinks_traced_faithful (unbound ast) ast rfl rm op rules s).1).symm

theorem RunShape.outcome_ne_indexPanic {count : Nat} {op : PolicyOp}
    {rules : List (List String)} {out : Outcome} {tr : List Event}
    (h : RunShape count op rules out tr) : out ≠ Outcome.indexPanic := by
  rcases h with ⟨ho, _⟩ | ⟨_, _, _, _, _, _, ho, _⟩ | ⟨_, _, _, _, _, _, _, _, _, ho, _⟩ |
      ⟨_, _, _, _, _, _, _, ho, _⟩ <;> simp [ho]

theorem buildIncrementalRoleLinks_ne_indexPanic (ast : Assertion σ Logger)
    (rm : RoleManager σ) (op : PolicyOp) (rules : List (List String)) (s : σ) :
    (buildIncrementalRoleLinks ast rm op rules s).1 ≠ Outcome.indexPanic := by
  by_cases hc : countUnderscore ast.Value < 2
  · simp [buildIncrementalRoleLinks, hc]
  · rw [buildIncrementalRoleLinks_outcome]
    exact (incremental_run (unbound ast) rm op rules s (by simpa [unbound] using hc)).1.outcome_ne_indexPanic

/-- C15. No index panic: for every Assertion, every capability in every state, every operation
tag and every list of tuples, neither `buildRoleLinks` nor `buildIncrementalRoleLinks` ends in
an index-out-of-range panic: `rule[0]`, `rule[1]`, `rule[2:]` and `rule[:count]` are only
evaluated on tuples that passed the length check with `count ≥ 2`. -/
theorem build_never_panics (ast : Assertion σ Logger) (rm : RoleManager σ) (op : PolicyOp)
    (rules : List (List String)) (s : σ) :
    (buildRoleLinks ast rm s).1 ≠ Outcome.indexPanic ∧
    (buildIncrementalRoleLinks ast rm op rules s).1 ≠ Outcome.indexPanic := by
  refine ⟨?_, buildIncrementalRoleLinks_ne_indexPanic ast rm op rules s⟩
  rw [buildRoleLinks_eq_incremental]
  exact buildIncrementalRoleLinks_ne_indexPanic ast rm _ _ s

/-- C16. Priority sentinel: `initPriorityIndex` sets `priorityIndex` to `-1` whatever it was,
leaves `Key`, `Value`, `Tokens`, `Policy`, `PolicyMap`, `RM` and `logger` unchanged, and calling
it twice is the same as calling it once. -/
theorem initPriorityIndex_sentinel (ast : Assertion σ Logger) :
    (initPriorityIndex ast).priorityIndex = -1 ∧
    (initPriorityIndex ast).Key = ast.Key ∧
    (initPriorityIndex ast).Value = ast.Value ∧
    (initPriorityIndex ast).Tokens = ast.Tokens ∧
    (initPriorityIndex ast).Policy = ast.Policy ∧
    (initPriorityIndex ast).PolicyMap = ast.PolicyMap ∧
    (initPriorityIndex ast).RM = ast.RM ∧
    (initPriorityIndex ast).logger = ast.logger ∧
    initPriorityIndex (initPriorityIndex ast) = initPriorityIndex ast :=
  ⟨rfl, rfl, rfl, rfl, rfl, rfl, rfl, rfl, rfl⟩

/-- C17. Success characterisation: on a capability that accepts every call, `buildRoleLinks`
returns `nil` if and only if the definition has `count ≥ 2` placeholders and every tuple of the
policy has at least `count` fields (a longer tuple is no cause of failure); with `count ≥ 2`
and an empty policy it returns `nil` without any capability call. -/
theorem buildRoleLinks_succeeds_iff (ast : Assertion (σ × List Event) Logger)
    (rm : RoleManager σ) (s : σ) (hrm : Accepts rm) :
    (fullOutcome ast rm s = Outcome.nil ↔
      2 ≤ countUnderscore ast.Value ∧ ∀ t ∈ ast.Policy, countUnderscore ast.Value ≤ t.length) ∧
    (2 ≤ countUnderscore ast.Value → ast.Policy = [] →
      fullOutcome ast rm s = Outcome.nil ∧ fullTrace ast rm s = []) := by
  have hsucc : 2 ≤ countUnderscore ast.Value →
      (∀ t ∈ ast.Policy, countUnderscore ast.Value ≤ t.length) →
      fullOutcome ast rm s = Outcome.nil ∧
        fullTrace ast rm s = linkEvents (countUnderscore ast.Value) PolicyOp.PolicyAdd ast.Policy
          ++ relationshipEvents ast.Policy := by
    intro hc hvalid
    obtain ⟨hshape, hans⟩ := full_run ast rm s hc
    simpa using hshape.of_accepts_valid hrm hans hvalid
  refine ⟨⟨fun hnil => ?_, fun h => (hsucc h.1 h.2).1⟩, fun hc hpol => ?_⟩
  · by_cases hc : 2 ≤ countUnderscore ast.Value
    · obtain ⟨hshape, hans⟩ := full_run ast rm s hc
      rcases hshape.of_accepts hrm hans with ⟨_, hall, _⟩ | ⟨_, _, _, _, _, _, ho, _⟩
      · exact ⟨hc, hall⟩
      · rw [hnil] at ho
        simp at ho
    · have hlt : countUnderscore ast.Value < 2 := by omega
      have : fullOutcome ast rm s = Outcome.error errRoleDefinition := by
        simp [fullOutcome, buildRoleLinks, hlt]
      rw [hnil] at this
      simp at this
  · have h := hsucc hc (by simp [hpol])
    refine ⟨h.1, ?_⟩
    rw [h.2, hpol]
    rfl

/-- C17, on a policy with an over-long tuple (success) and on one with a short tuple. -/
theorem buildRoleLinks_succeeds_iff_witness :
    fullOutcome (mkAssertion "_, _" [["alice", "admin", "extra"], ["bob", "editor"]])
      acceptAll () = Outcome.nil ∧
    ¬ fullOutcome (mkAssertion "_, _" [["alice", "admin"], ["bob"]]) acceptAll ()
      = Outcome.nil ∧
    (fullOutcome (mkAssertion "_, _" []) acceptAll () = Outcome.nil ∧
      fullTrace (mkAssertion "_, _" []) acceptAll () = []) :=
  ⟨(buildRoleLinks_succeeds_iff
      (mkAssertion "_, _" [["alice", "admin", "extra"], ["bob", "editor"]])
      acceptAll () acceptAll_accepts).1.2 (by decide),
    fun h => absurd ((buildRoleLinks_succeeds_iff
      (mkAssertion "_, _" [["alice", "admin"], ["bob"]])
      acceptAll () acceptAll_accepts).1.1 h) (by decide),
    (buildRoleLinks_succeeds_iff (mkAssertion "_, _" []) acceptAll () acceptAll_accepts).2
      (by decide) rfl⟩

/-- C18. Full rebuild equals incremental Add over the whole policy: for every Assertion,
every capability and every state of it, `buildRoleLinks(rm)` and
`buildIncrementalRoleLinks(rm, PolicyAdd, ast.Policy)` give the same outcome, leave the
Assertion and the capability in the same state, and issue the same calls with the same
arguments and answers. -/
theorem buildRoleLinks_is_incremental_add (ast : Assertion σ Logger) (rm : RoleManager σ)
    (s : σ) (obs : Assertion (σ × List Event) Logger) :
    buildRoleLinks ast rm s = buildIncrementalRoleLinks ast rm PolicyOp.PolicyAdd ast.Policy s ∧
    fullOutcome obs rm s = incrementalOutcome obs rm PolicyOp.PolicyAdd obs.Policy s ∧
    fullTrace obs rm s = incrementalTrace obs rm PolicyOp.PolicyAdd obs.Policy s :=
  ⟨buildRoleLinks_eq_incremental ast rm s,
    congrArg (fun r => r.1) (buildRoleLinks_eq_incremental obs (traced rm) (s, [])),
    congrArg (fun r => r.2.2.2) (buildRoleLinks_eq_incremental obs (traced rm) (s, []))⟩

/-! ## The copy and the index -/

theorem copy_entries_perm (ast : Assertion σ Logger) :
    (copy ast).PolicyMap.entries.Perm ast.PolicyMap.entries := by
  refine List.lookup_ext (copy ast).PolicyMap.nodupKeys ast.PolicyMap.nodupKeys ?_
  intro k v
  have h := copy_lookup ast k
  simp only [AList.lookup] at h
  rw [h]

theorem copy_policy (ast : Assertion σ Logger) : (copy ast).Policy = ast.Policy := by
  simp [copy]

/-- C11 as stated fails: the Assertion with no tuple and an index holding the stale entry
`"alice,admin" ↦ 0` is copied with that entry, which is no valid index into the copy's empty
policy: the copy is consistent under no serialization. -/
theorem copy_keeps_stale_entry :
    (copy (mkIndexed [] ((∅ : AList (fun _ : String => Int)).insert "alice,admin" 0))).Policy
      = [] ∧
    (copy (mkIndexed [] ((∅ : AList (fun _ : String => Int)).insert "alice,admin" 0))
      ).PolicyMap.lookup "alice,admin" = some 0 ∧
    ¬ ∃ key, PolicyMapConsistent key
      (copy (mkIndexed [] ((∅ : AList (fun _ : String => Int)).insert "alice,admin" 0))) := by
  refine ⟨by decide, by decide, ?_⟩
  rintro ⟨key, h, _, _⟩
  have hmem : (⟨"alice,admin", 0⟩ : Sigma fun _ : String => Int) ∈
      (copy (mkIndexed [] ((∅ : AList (fun _ : String => Int)).insert "alice,admin" 0))
        ).PolicyMap.entries := by
    decide
  have := (h _ hmem).2
  simp [copy_policy, mkIndexed] at this

/-- C11, amended. Copy preserves the policy/policyMap invariant and does not establish it:
under any serialization of tuples, the copy's `PolicyMap` matches the copy's `Policy` exactly
(every entry a valid index of the tuple its key serializes, an entry for every tuple, as many
entries as distinct tuples) if and only if the original's `PolicyMap` matches the original's
`Policy`. -/
theorem copy_consistent_iff (key : List String → String) (ast : Assertion σ Logger) :
    PolicyMapConsistent key (copy ast) ↔ PolicyMapConsistent key ast := by
  have hperm := copy_entries_perm ast
  simp only [PolicyMapConsistent, copy_policy, copy_lookup, hperm.length_eq, hperm.mem_iff]

/-- C11 amended, on an Assertion whose index matches its two tuples. -/
theorem copy_consistent_iff_witness :
    PolicyMapConsistent joinFields
      (copy (mkIndexed [["alice", "admin"], ["bob", "editor"]]
        (((∅ : AList (fun _ : String => Int)).insert "alice,admin" 0).insert
          "bob,editor" 1))) :=
  (copy_consistent_iff joinFields
    (mkIndexed [["alice", "admin"], ["bob", "editor"]]
      (((∅ : AList (fun _ : String => Int)).insert "alice,admin" 0).insert "bob,editor" 1))).2
    ⟨by decide, by decide, by decide⟩

/-! ## The error values of validation -/

/-- The outcome of an update and the state it leaves the capability in depend on the
Assertion through its `Value` only. -/
theorem buildIncrementalRoleLinks_congr (a b : Assertion σ Logger) (hv : a.Value = b.Value)
    (rm : RoleManager σ) (op : PolicyOp) (rules : List (List String)) (s : σ) :
    (buildIncrementalRoleLinks a rm op rules s).1 = (buildIncrementalRoleLinks b rm op rules s).1 ∧
    (buildIncrementalRoleLinks a rm op rules s).2.2
      = (buildIncrementalRoleLinks b rm op rules s).2.2 := by
  unfold buildIncrementalRoleLinks
  simp only [hv]
  by_cases hc : countUnderscore b.Value < 2
  · simp [hc]
  · simp only [hc, ↓reduceIte]
    rcases incrementalLinkLoop rm (countUnderscore b.Value) op rules s with ⟨_ | o, s1⟩
    · by_cases hop : op = PolicyOp.PolicyAdd
      · simp only [hop, ↓reduceIte]
        rcases relationshipLoop rm rules s1 with ⟨_ | o2, s2⟩ <;> exact ⟨rfl, rfl⟩
      · simp [hop]
    · exact ⟨rfl, rfl⟩

/-- A run in which no recorded call failed succeeded or stopped at a short tuple. -/
theorem RunShape.of_no_failure {count : Nat} {op : PolicyOp} {rules : List (List String)}
    {out : Outcome} {tr : List Event} (h : RunShape count op rules out tr)
    (hno : ∀ ev ∈ tr, ev.response = none) :
    out = Outcome.nil ∨
      ((∃ t ∈ rules, t.length < count) ∧ out = Outcome.error errGroupingPolicy) := by
  rcases h with ⟨ho, _⟩ | ⟨pre, t, post, hr, _, ht, ho, _⟩ |
      ⟨pre, t, post, c, e, _, _, _, _, _, htr⟩ | ⟨_, pre, t, post, e, _, _, _, htr⟩
  · exact Or.inl ho
  · exact Or.inr ⟨⟨t, by simp [hr], ht⟩, ho⟩
  · have := hno ⟨c, some e⟩ (by simp [htr])
    simp at this
  · have := hno ⟨relationshipOf t, some e⟩ (by simp [htr])
    simp at this

/-- C13 as stated fails: two rebuilds on Assertions with different keys, failing on different
short tuples, return errors with one and the same message, which is all an error made by
`errors.New` holds: the fixed text, without key or tuple. -/
theorem validation_error_without_context :
    ({ (mkAssertion "_, _" [["alice"]] : Assertion (Unit × List Event) Unit)
        with Key := "g" }).Key ≠
      ({ (mkAssertion "_, _" [["alice", "admin"], ["bob"]] :
        Assertion (Unit × List Event) Unit) with Key := "g2" }).Key ∧
    (fullOutcome ({ (mkAssertion "_, _" [["alice"]] : Assertion (Unit × List Event) Unit)
        with Key := "g" }) acceptAll ()).message =
      some "grouping policy elements do not meet role definition" ∧
    (fullOutcome ({ (mkAssertion "_, _" [["alice", "admin"], ["bob"]] :
        Assertion (Unit × List Event) Unit) with Key := "g2" }) acceptAll ()).message =
      some "grouping policy elements do not meet role definition" := by
  decide

/-- C13, amended. The error returned for a validation failure has one of two fixed messages,
which differ from each other and hold neither the Assertion's `Key` nor the offending tuple.
For any capability: a build in which no capability call failed returns `nil`, or an error with
the message "the number of \"_\" in role definition should be at least 2" when the definition
has fewer than 2 placeholders, or an error with the message "grouping policy elements do not
meet role definition" when some tuple has fewer fields than placeholders; and the message
returned is the same under any other `Key`. -/
theorem validation_error_fixed (ast : Assertion (σ × List Event) Logger) (rm : RoleManager σ)
    (op : PolicyOp) (rules : List (List String)) (s : σ) :
    ((∀ ev ∈ fullTrace ast rm s, ev.response = none) →
      fullOutcome ast rm s = Outcome.nil ∨
      (countUnderscore ast.Value < 2 ∧ (fullOutcome ast rm s).message =
        some "the number of \"_\" in role definition should be at least 2") ∨
      ((∃ t ∈ ast.Policy, t.length < countUnderscore ast.Value) ∧
        (fullOutcome ast rm s).message =
          some "grouping policy elements do not meet role definition")) ∧
    ((∀ ev ∈ incrementalTrace ast rm op rules s, ev.response = none) →
      incrementalOutcome ast rm op rules s = Outcome.nil ∨
      (countUnderscore ast.Value < 2 ∧ (incrementalOutcome ast rm op rules s).message =
        some "the number of \"_\" in role definition should be at least 2") ∨
      ((∃ t ∈ rules, t.length < countUnderscore ast.Value) ∧
        (incrementalOutcome ast rm op rules s).message =
          some "grouping policy elements do not meet role definition")) ∧
    errRoleDefinition.msg ≠ errGroupingPolicy.msg ∧
    (∀ k, (fullOutcome { ast with Key := k } rm s).message = (fullOutcome ast rm s).message) ∧
    (∀ k, (incrementalOutcome { ast with Key := k } rm op rules s).message
      = (incrementalOutcome ast rm op rules s).message) := by
  refine ⟨fun hno => ?_, fun hno => ?_, by decide, fun k => ?_, fun k => ?_⟩
  · by_cases hc : 2 ≤ countUnderscore ast.Value
    · rcases (full_run ast rm s hc).1.of_no_failure hno with ho | ⟨ht, ho⟩
      · exact Or.inl ho
      · exact Or.inr (Or.inr ⟨ht, by rw [ho]; rfl⟩)
    · have hlt : countUnderscore ast.Value < 2 := by omega
      have ho : fullOutcome ast rm s = Outcome.error errRoleDefinition := by
        simp [fullOutcome, buildRoleLinks, hlt]
      exact Or.inr (Or.inl ⟨hlt, by rw [ho]; rfl⟩)
  · by_cases hc : 2 ≤ countUnderscore ast.Value
    · rcases (incremental_run ast rm op rules s hc).1.of_no_failure hno with ho | ⟨ht, ho⟩
      · exact Or.inl ho
      · exact Or.inr (Or.inr ⟨ht, by rw [ho]; rfl⟩)
    · have hlt : countUnderscore ast.Value < 2 := by omega
      have ho : incrementalOutcome ast rm op rules s = Outcome.error errRoleDefinition := by
        simp [incrementalOutcome, buildIncrementalRoleLinks, hlt]
      exact Or.inr (Or.inl ⟨hlt, by rw [ho]; rfl⟩)
  · unfold fullOutcome
    rw [buildRoleLinks_eq_incremental, buildRoleLinks_eq_incremental]
    exact congrArg Outcome.message (buildIncrementalRoleLinks_congr { ast with Key := k } ast rfl
      (traced rm) PolicyOp.PolicyAdd ast.Policy (s, [])).1
  · exact congrArg Outcome.message (buildIncrementalRoleLinks_congr { ast with Key := k } ast rfl
      (traced rm) op rules (s, [])).1

/-- C13 amended, on a capability that rejects `BuildRelationship`: the rebuild stops at the
short second tuple after an accepted `AddLink`, no call has failed, and the message is the
fixed text of the shape error; the update on a definition with one placeholder makes no call
and returns the fixed text of the configuration error. -/
theorem validation_error_fixed_witness :
    (∀ ev ∈ fullTrace (mkAssertion "_, _" [["alice", "admin"], ["bob"]]) rejectRelationship (),
      ev.response = none) ∧
    (fullOutcome (mkAssertion "_, _" [["alice", "admin"], ["bob"]]) rejectRelationship ()
      ).message = some "grouping policy elements do not meet role definition" ∧
    (incrementalOutcome (mkAssertion "_" []) rejectRelationship PolicyOp.PolicyAdd
      [["carol", "viewer"]] ()).message =
      some "the number of \"_\" in role definition should be at least 2" :=
  have h1 := (validation_error_fixed (mkAssertion "_, _" [["alice", "admin"], ["bob"]])
    rejectRelationship PolicyOp.PolicyAdd [] ()).1 (by decide)
  have h2 := (validation_error_fixed (mkAssertion "_" []) rejectRelationship PolicyOp.PolicyAdd
    [["carol", "viewer"]] ()).2.1 (by decide)
  ⟨by decide,
    h1.elim (fun h => absurd h (by decide))
      (fun h => h.elim (fun h => absurd h.1 (by decide)) (fun h => h.2)),
    h2.elim (fun h => absurd h (by decide))
      (fun h => h.elim (fun h => h.2) (fun h => absurd h.1 (by decide)))⟩

/-! ## The copy in a store -/

theorem readStrings_of_prefix {st st2 : Store} {e : List (List String)}
    (h : st2.strings = st.strings ++ e) {r : SliceRef}
    (hr : ∀ a, r.arr = some a → a < st.strings.length) :
    readStrings st2 r = readStrings st r := by
  unfold readStrings
  cases ha : r.arr with
  | none => rfl
  | some a => simp only [h, List.getElem?_append_left (hr a ha)]

theorem readSlices_of_prefix {st st2 : Store} {e : List (List SliceRef)}
    (h : st2.slices = st.slices ++ e) {r : SliceRef}
    (hr : ∀ a, r.arr = some a → a < st.slices.length) :
    readSlices st2 r = readSlices st r := by
  unfold readSlices
  cases ha : r.arr with
  | none => rfl
  | some a => simp only [h, List.getElem?_append_left (hr a ha)]

theorem readMap_of_prefix {st st2 : Store} {e : List (AList (fun _ : String => Int))}
    (h : st2.maps = st.maps ++ e) {m : Option Nat}
    (hm : ∀ a, m = some a → a < st.maps.length) :
    readMap st2 m = readMap st m := by
  unfold readMap
  cases m with
  | none => rfl
  | some a => simp only [h, List.getElem?_append_left (hm a rfl)]

/-- Appending to the nil slice: nothing happens for no elements; otherwise the elements go to
a new backing array. -/
theorem appendStrings_nil (st : Store) (xs : List String) :
    appendStrings st nilSlice xs =
      if xs = [] then (nilSlice, st)
      else (⟨some st.strings.length, 0, xs.length, xs.length⟩,
        { st with strings := st.strings ++ [xs] }) := by
  by_cases hx : xs = []
  · simp [appendStrings, nilSlice, hx]
  · have hlen : ¬ xs.length = 0 := fun h => hx (List.length_eq_zero.1 h)
    simp [appendStrings, nilSlice, hx, hlen, readStrings]

/-- What appending to the nil slice does to the store and what the result reads as. -/
theorem appendStrings_nil_spec (st : Store) (xs : List String) :
    (∃ e, (appendStrings st nilSlice xs).2.strings = st.strings ++ e) ∧
    (appendStrings st nilSlice xs).2.slices = st.slices ∧
    (appendStrings st nilSlice xs).2.maps = st.maps ∧
    readStrings (appendStrings st nilSlice xs).2 (appendStrings st nilSlice xs).1 = xs ∧
    (∀ a, (appendStrings st nilSlice xs).1.arr = some a →
      st.strings.length ≤ a ∧ a < (appendStrings st nilSlice xs).2.strings.length) := by
  rw [appendStrings_nil]
  by_cases hx : xs = []
  · rw [if_pos hx]
    exact ⟨⟨[], by simp⟩, rfl, rfl, by simp [readStrings, nilSlice, hx],
      fun a ha => by simp [nilSlice] at ha⟩
  · rw [if_neg hx]
    refine ⟨⟨[xs], rfl⟩, rfl, rfl, ?_, ?_⟩
    · simp [readStrings]
    · intro a ha
      simp only [Option.some.injEq] at ha
      subst ha
      simp

theorem readStrings_congr {st st2 : Store} (h : st2.strings = st.strings) (r : SliceRef) :
    readStrings st2 r = readStrings st r := by
  unfold readStrings
  rw [h]

/-- One iteration of the loop over the tuples. -/
theorem copyTuples_step (base : Store) (src : SliceRef) (n i : Nat) (s : Store)
    (hsrc : ∀ a, src.arr = some a → a < base.slices.length)
    (hlen : (readSlices base src).length = n)
    (htup : ∀ t ∈ readSlices base src, ∀ a, t.arr = some a → a < base.strings.length)
    (hi : i < n) (h : TuplesCopied base (readSlices base src) n i s) :
    TuplesCopied base (readSlices base src) n (i + 1)
      (copyTuples src ⟨some base.slices.length, 0, n, n⟩ [i] s) := by
  obtain ⟨⟨e, hs⟩, ⟨done, hsl, hdl, hdm, hdf⟩, hm⟩ := h
  have hrs : readSlices s src = readSlices base src := readSlices_of_prefix hsl hsrc
  have hrowlen : (done ++ List.replicate (n - i) nilSlice).length = n := by
    simp [hdl]
    omega
  have hrow : readSlices s ⟨some base.slices.length, 0, n, n⟩
      = done ++ List.replicate (n - i) nilSlice := by
    simp only [readSlices, hsl, List.getElem?_append_right (Nat.le_refl _), Nat.sub_self,
      List.getElem?_cons_zero, Option.getD_some, List.drop_zero]
    exact List.take_of_length_le (by rw [hrowlen])
  have hd : ((readSlices s ⟨some base.slices.length, 0, n, n⟩)[i]?).getD nilSlice = nilSlice := by
    rw [hrow, List.getElem?_append_right (by rw [hdl]), hdl, Nat.sub_self,
      List.getElem?_replicate]
    simp [hi]
  obtain ⟨p, hp⟩ : ∃ p, (readSlices base src)[i]? = some p :=
    ⟨_, List.getElem?_eq_getElem (by rw [hlen]; exact hi)⟩
  have hxs : readStrings s p = readStrings base p :=
    readStrings_of_prefix hs (htup p (List.getElem?_mem hp))
  obtain ⟨⟨e2, h2s⟩, h2sl, h2m, h2r, h2f⟩ := appendStrings_nil_spec s (readStrings base p)
  have hstep : copyTuples src ⟨some base.slices.length, 0, n, n⟩ [i] s
      = setSlice (appendStrings s nilSlice (readStrings base p)).2
          ⟨some base.slices.length, 0, n, n⟩ i
          (appendStrings s nilSlice (readStrings base p)).1 := by
    simp only [copyTuples, List.foldl_cons, List.foldl_nil, hrs, hp, Option.getD_some, hd, hxs]
  rw [hstep]
  generalize appendStrings s nilSlice (readStrings base p) = r at h2s h2sl h2m h2r h2f
  have hstr : (setSlice r.2 ⟨some base.slices.length, 0, n, n⟩ i r.1).strings
      = base.strings ++ (e ++ e2) := by
    simp [setSlice, h2s, hs]
  have hss : (setSlice r.2 ⟨some base.slices.length, 0, n, n⟩ i r.1).strings = r.2.strings :=
    rfl
  refine ⟨⟨e ++ e2, hstr⟩, ⟨done ++ [r.1], ?_, by simp [hdl], ?_, ?_⟩, ?_⟩
  · obtain ⟨k, hk⟩ : ∃ k, n - i = k + 1 := ⟨n - i - 1, by omega⟩
    have hk2 : n - (i + 1) = k := by omega
    simp only [setSlice, h2sl, hsl, List.getElem?_append_right (Nat.le_refl _), Nat.sub_self,
      List.getElem?_cons_zero, Option.getD_some, Nat.zero_add, hk, hk2,
      List.set_append_right _ _ (Nat.le_refl _), List.set_cons_zero]
    rw [List.set_append_right _ _ (by rw [hdl]), hdl, Nat.sub_self, List.replicate_succ,
      List.set_cons_zero]
    simp
  · rw [List.take_succ, hp]
    simp only [List.map_append, Option.toList_some, List.map_cons, List.map_nil]
    congr 1
    · rw [← hdm]
      apply List.map_congr_left
      intro t ht
      rw [readStrings_congr hss, readStrings_of_prefix h2s]
      exact fun a ha => (hdf t ht a ha).2
    · rw [readStrings_congr hss, h2r]
  · intro t ht a ha
    rw [hstr]
    rcases List.mem_append.1 ht with ht | ht
    · have := hdf t ht a ha
      rw [hs] at this
      simp only [List.length_append] at this ⊢
      omega
    · rw [List.mem_singleton.1 ht] at ha
      have := h2f a ha
      rw [hs, h2s, hs] at this
      simp only [List.length_append] at this ⊢
      omega
  · simp [setSlice, h2m, hm]

/-- The loop over the tuples, after `i` iterations. -/
theorem copyTuples_range (base : Store) (src : SliceRef) (n : Nat)
    (hsrc : ∀ a, src.arr = some a → a < base.slices.length)
    (hlen : (readSlices base src).length = n)
    (htup : ∀ t ∈ readSlices base src, ∀ a, t.arr = some a → a < base.strings.length)
    (i : Nat) (hi : i ≤ n) :
    TuplesCopied base (readSlices base src) n i
      (copyTuples src ⟨some base.slices.length, 0, n, n⟩ (List.range i) (makeSlices base n).2) := by
  induction i with
  | zero =>
    refine ⟨⟨[], by simp [copyTuples, makeSlices]⟩, ⟨[], ?_, rfl, by simp, by simp⟩, ?_⟩
    · simp [copyTuples, makeSlices]
    · simp [copyTuples, makeSlices]
  | succ i ih =>
    have hfold : copyTuples src ⟨some base.slices.length, 0, n, n⟩ (List.range (i + 1))
        (makeSlices base n).2
        = copyTuples src ⟨some base.slices.length, 0, n, n⟩ [i]
          (copyTuples src ⟨some base.slices.length, 0, n, n⟩ (List.range i)
            (makeSlices base n).2) := by
      simp only [copyTuples, List.range_succ, List.foldl_append]
    rw [hfold]
    exact copyTuples_step base src n i _ hsrc hlen htup (by omega) (ih (by omega))

/-- The loop over the entries of the map, writing to the map object allocated last. -/
theorem mapAssign_foldl (M : List (AList (fun _ : String => Int)))
    (entries : List (Sigma fun _ : String => Int)) (s : Store)
    (m : AList (fun _ : String => Int)) (hs : s.maps = M ++ [m]) :
    (entries.foldl (fun st kv => mapAssign st M.length kv.1 kv.2) s).maps
        = M ++ [copyPolicyMap entries m] ∧
      (entries.foldl (fun st kv => mapAssign st M.length kv.1 kv.2) s).strings = s.strings ∧
      (entries.foldl (fun st kv => mapAssign st M.length kv.1 kv.2) s).slices = s.slices := by
  induction entries generalizing s m with
  | nil => exact ⟨hs, rfl, rfl⟩
  | cons kv entries ih =>
    have hstep : (mapAssign s M.length kv.1 kv.2).maps = M ++ [m.insert kv.1 kv.2] := by
      simp [mapAssign, hs]
    obtain ⟨h1, h2, h3⟩ := ih (mapAssign s M.length kv.1 kv.2) (m.insert kv.1 kv.2) hstep
    exact ⟨h1, h2, h3⟩

theorem readSlices_congr {st st2 : Store} (h : st2.slices = st.slices) (r : SliceRef) :
    readSlices st2 r = readSlices st r := by
  unfold readSlices
  rw [h]

/-- The copy of a well-formed Assertion, described. -/
theorem copyRef_spec (st : Store) (a : AssertionRef σ Logger) (hwf : WellFormed st a) :
    Copied st a (copyRef a st).1 (copyRef a st).2 := by
  obtain ⟨hwt, hwp, hwl, hwe, hwm⟩ := hwf
  obtain ⟨⟨e1, h1s⟩, h1sl, h1m, h1r, h1f⟩ := appendStrings_nil_spec st (readStrings st a.Tokens)
  generalize hbase : appendStrings st nilSlice (readStrings st a.Tokens) = tk at h1s h1sl h1m h1r h1f
  have hrs : readSlices tk.2 a.Policy = readSlices st a.Policy := readSlices_congr h1sl _
  have hloop := copyTuples_range tk.2 a.Policy a.Policy.len
    (fun x hx => by rw [h1sl]; exact hwp x hx) (by rw [hrs]; exact hwl)
    (fun t ht x hx => by
      rw [hrs] at ht
      have := hwe t ht x hx
      rw [h1s, List.length_append]
      omega) a.Policy.len (Nat.le_refl _)
  have hloop2 : TuplesCopied tk.2 (readSlices tk.2 a.Policy) a.Policy.len a.Policy.len
      (copyTuples a.Policy (makeSlices tk.2 a.Policy.len).1 (List.range a.Policy.len)
        (makeSlices tk.2 a.Policy.len).2) := hloop
  clear hloop
  generalize hst3 : copyTuples a.Policy (makeSlices tk.2 a.Policy.len).1
    (List.range a.Policy.len) (makeSlices tk.2 a.Policy.len).2 = st3 at hloop2
  have hloop := hloop2
  obtain ⟨⟨e3, h3s⟩, ⟨done, h3sl, hdl, hdm, hdf⟩, h3m⟩ := hloop
  have hmaps : (makeMap st3).2.maps = st.maps ++ [∅] := by
    simp [makeMap, h3m, h1m]
  have hlenmaps : (makeMap st3).1 = st.maps.length := by
    simp [makeMap, h3m, h1m]
  have hrm : readMap (makeMap st3).2 a.PolicyMap = readMap st a.PolicyMap :=
    readMap_of_prefix hmaps hwm
  obtain ⟨h5m, h5s, h5sl⟩ := mapAssign_foldl st.maps (readMap st a.PolicyMap).entries
    (makeMap st3).2 ∅ hmaps
  have hcopy : copyRef a st =
      ({ Key := a.Key, Value := a.Value, PolicyMap := some st.maps.length, Tokens := tk.1,
         Policy := ⟨some st.slices.length, 0, a.Policy.len, a.Policy.len⟩, RM := none,
         logger := none, priorityIndex := a.priorityIndex },
        (readMap st a.PolicyMap).entries.foldl
          (fun st2 kv => mapAssign st2 st.maps.length kv.1 kv.2) (makeMap st3).2) := by
    simp only [copyRef, hbase, hst3, hlenmaps, hrm]
    simp only [makeSlices, h1sl]
  rw [hcopy]
  simp only
  have hstr : ((readMap st a.PolicyMap).entries.foldl
      (fun st2 kv => mapAssign st2 st.maps.length kv.1 kv.2) (makeMap st3).2).strings
      = st.strings ++ (e1 ++ e3) := by
    rw [h5s]
    simp [makeMap, h3s, h1s]
  have hstr3 : ((readMap st a.PolicyMap).entries.foldl
      (fun st2 kv => mapAssign st2 st.maps.length kv.1 kv.2) (makeMap st3).2).strings
      = st3.strings := by
    rw [h5s]
    rfl
  refine ⟨⟨e1 ++ e3, hstr⟩, ⟨done, ?_, by simpa using hdl, ?_, ?_⟩, h5m, ?_, ?_, rfl, rfl, rfl,
    rfl, rfl, rfl, rfl⟩
  · rw [h5sl]
    simp [makeMap, h3sl, h1sl]
  · rw [List.map_congr_left (fun t _ => readStrings_congr hstr3 t), hdm, hrs,
      List.take_of_length_le (by rw [hwl])]
    apply List.map_congr_left
    intro t ht
    exact readStrings_of_prefix h1s (hwe t ht)
  · intro t ht x hx
    have := (hdf t ht x hx).1
    rw [h1s, List.length_append] at this
    omega
  · rw [readStrings_congr hstr3, readStrings_of_prefix h3s (fun x hx => (h1f x hx).2), h1r]
  · intro x hx
    exact (h1f x hx).1

theorem readSlices_new {st : Store} {M : List (List SliceRef)} {row : List SliceRef} {n : Nat}
    (h : st.slices = M ++ [row]) (hn : row.length = n) :
    readSlices st ⟨some M.length, 0, n, n⟩ = row := by
  simp only [readSlices, h, List.getElem?_append_right (Nat.le_refl _), Nat.sub_self,
    List.getElem?_cons_zero, Option.getD_some, List.drop_zero]
  exact List.take_of_length_le (by rw [hn])

theorem readMap_new {st : Store} {M : List (AList (fun _ : String => Int))}
    {m : AList (fun _ : String => Int)} (h : st.maps = M ++ [m]) :
    readMap st (some M.length) = m := by
  simp [readMap, h]

/-- What the Assertions read as after the copy: the original as before, the new one as the
copy of the original. -/
theorem Copied.values {st st2 : Store} {a b : AssertionRef σ Logger} (h : Copied st a b st2)
    (hwf : WellFormed st a) :
    b.value st2 = copy (a.value st) ∧ a.value st2 = a.value st := by
  obtain ⟨hwt, hwp, hwl, hwe, hwm⟩ := hwf
  obtain ⟨⟨e, hs⟩, ⟨row, hsl, hrl, hrm, hrf⟩, hm, hbt, hbf, hbp, hbm, hk, hv, hr, hl, hpi⟩ := h
  constructor
  · have hP : (readSlices st2 b.Policy).map (readStrings st2)
        = (readSlices st a.Policy).map (readStrings st) := by
      rw [hbp, readSlices_new hsl hrl, hrm]
    have hM : readMap st2 b.PolicyMap = copyPolicyMap (readMap st a.PolicyMap).entries ∅ := by
      rw [hbm, readMap_new hm]
    simp only [AssertionRef.value, copy, hP, hM, hbt, hk, hv, hr, hl, hpi, List.nil_append,
      List.map_id']
  · have hT : readStrings st2 a.Tokens = readStrings st a.Tokens := readStrings_of_prefix hs hwt
    have hS : readSlices st2 a.Policy = readSlices st a.Policy := readSlices_of_prefix hsl hwp
    have hP : (readSlices st2 a.Policy).map (readStrings st2)
        = (readSlices st a.Policy).map (readStrings st) := by
      rw [hS]
      exact List.map_congr_left (fun t ht => readStrings_of_prefix hs (hwe t ht))
    have hM : readMap st2 a.PolicyMap = readMap st a.PolicyMap := readMap_of_prefix hm hwm
    simp only [AssertionRef.value, hT, hP, hM]

/-- The reference-level copy refines `copy`: the new Assertion reads as the copy of what the
original read as, and the original reads as before. -/
theorem copyRef_refines_copy (st : Store) (a : AssertionRef σ Logger) (hwf : WellFormed st a) :
    (copyRef a st).1.value (copyRef a st).2 = copy (a.value st) ∧
      a.value (copyRef a st).2 = a.value st :=
  (copyRef_spec st a hwf).values hwf

theorem readStrings_set_ne (s : Store) (a : Nat) (v : List String) {t : SliceRef}
    (ht : t.arr ≠ some a) :
    readStrings { s with strings := s.strings.set a v } t = readStrings s t := by
  unfold readStrings
  cases hb : t.arr with
  | none => rfl
  | some b =>
    have hne : a ≠ b := fun h => ht (by rw [hb, h])
    simp only [List.getElem?_set_ne hne]

/-- Replacing a string array leaves an Assertion as it reads when the Assertion reaches that
array neither from its tokens nor from its tuples. -/
theorem value_set_strings (c : AssertionRef σ Logger) (s : Store) (a : Nat) (v : List String)
    (hT : c.Tokens.arr ≠ some a) (hP : ∀ t ∈ readSlices s c.Policy, t.arr ≠ some a) :
    c.value { s with strings := s.strings.set a v } = c.value s := by
  have h1 := readStrings_set_ne s a v hT
  have h2 : readSlices { s with strings := s.strings.set a v } c.Policy
      = readSlices s c.Policy := rfl
  have h3 : (readSlices s c.Policy).map (readStrings { s with strings := s.strings.set a v })
      = (readSlices s c.Policy).map (readStrings s) :=
    List.map_congr_left (fun t ht => readStrings_set_ne s a v (hP t ht))
  have h4 : readMap { s with strings := s.strings.set a v } c.PolicyMap
      = readMap s c.PolicyMap := rfl
  simp only [AssertionRef.value, h1, h2, h3, h4]

/-- Writing an element through a slice leaves an Assertion as it reads when the Assertion
reaches the backing array of that slice neither from its tokens nor from its tuples. -/
theorem value_setString (c : AssertionRef σ Logger) (s : Store) (r : SliceRef) (j : Nat)
    (x : String) (hT : ∀ a, r.arr = some a → c.Tokens.arr ≠ some a)
    (hP : ∀ a, r.arr = some a → ∀ t ∈ readSlices s c.Policy, t.arr ≠ some a) :
    c.value (setString s r j x) = c.value s := by
  unfold setString
  cases ha : r.arr with
  | none => rfl
  | some a =>
    by_cases hj : j < r.len
    · simp only [hj, ↓reduceIte]
      exact value_set_strings c s a _ (hT a ha) (hP a ha)
    · simp only [hj, ↓reduceIte]

/-- Writing an entry through a map value leaves an Assertion as it reads when its own map is
another object. -/
theorem value_setEntry (c : AssertionRef σ Logger) (s : Store) (m : Option Nat) (k : String)
    (v : Int) (hm : ∀ a, m = some a → c.PolicyMap ≠ some a) :
    c.value (setEntry s m k v) = c.value s := by
  unfold setEntry
  cases m with
  | none => rfl
  | some a =>
    have h1 : readMap (mapAssign s a k v) c.PolicyMap = readMap s c.PolicyMap := by
      unfold readMap
      cases hb : c.PolicyMap with
      | none => rfl
      | some b =>
        have hne : a ≠ b := fun h => hm a rfl (by rw [hb, h])
        simp only [mapAssign, List.getElem?_set_ne hne]
    have h2 : readStrings (mapAssign s a k v) c.Tokens = readStrings s c.Tokens := rfl
    have h3 : (readSlices (mapAssign s a k v) c.Policy).map (readStrings (mapAssign s a k v))
        = (readSlices s c.Policy).map (readStrings s) := rfl
    simp only [AssertionRef.value, h1, h2, h3]

theorem arr_of_getD {l : List SliceRef} {i x : Nat}
    (h : ((l[i]?).getD nilSlice).arr = some x) : (l[i]?).getD nilSlice ∈ l := by
  cases hl : l[i]? with
  | none => simp [hl, nilSlice] at h
  | some r => simpa using List.getElem?_mem hl

/-- C12. Copy independence: for an Assertion whose references are well formed in the store,
the copy shares no backing storage with it.  After the copy, overwriting a field of a tuple of
the copy's `Policy`, an element of its `Tokens` or an entry of its `PolicyMap` leaves the
original reading as before (tuples, tokens and map entries included), and overwriting a field
of a tuple, a token or a map entry of the original leaves the copy reading as before. -/
theorem copy_shares_no_storage (st : Store) (a : AssertionRef σ Logger)
    (hwf : WellFormed st a) :
    (∀ (i j : Nat) (x : String), a.value (setString (copyRef a st).2
        (((readSlices (copyRef a st).2 (copyRef a st).1.Policy)[i]?).getD nilSlice) j x)
      = a.value (copyRef a st).2) ∧
    (∀ (j : Nat) (x : String), a.value (setString (copyRef a st).2 (copyRef a st).1.Tokens j x)
      = a.value (copyRef a st).2) ∧
    (∀ (k : String) (v : Int), a.value (setEntry (copyRef a st).2 (copyRef a st).1.PolicyMap k v)
      = a.value (copyRef a st).2) ∧
    (∀ (i j : Nat) (x : String), (copyRef a st).1.value (setString (copyRef a st).2
        (((readSlices (copyRef a st).2 a.Policy)[i]?).getD nilSlice) j x)
      = (copyRef a st).1.value (copyRef a st).2) ∧
    (∀ (j : Nat) (x : String), (copyRef a st).1.value (setString (copyRef a st).2 a.Tokens j x)
      = (copyRef a st).1.value (copyRef a st).2) ∧
    (∀ (k : String) (v : Int), (copyRef a st).1.value (setEntry (copyRef a st).2 a.PolicyMap k v)
      = (copyRef a st).1.value (copyRef a st).2) := by
  have hspec := copyRef_spec st a hwf
  obtain ⟨hwt, hwp, hwl, hwe, hwm⟩ := hwf
  generalize (copyRef a st).1 = b at hspec ⊢
  generalize (copyRef a st).2 = st2 at hspec ⊢
  obtain ⟨⟨e, hs⟩, ⟨row, hsl, hrl, hrm, hrf⟩, hm, hbt, hbf, hbp, hbm, _⟩ := hspec
  have hSa : readSlices st2 a.Policy = readSlices st a.Policy := readSlices_of_prefix hsl hwp
  have hSb : readSlices st2 b.Policy = row := by rw [hbp, readSlices_new hsl hrl]
  refine ⟨fun i j x => ?_, fun j x => ?_, fun k v => ?_, fun i j x => ?_, fun j x => ?_,
    fun k v => ?_⟩
  · apply value_setString
    · intro y hy hay
      have h1 := hrf _ (hSb ▸ arr_of_getD hy) y (hSb ▸ hy)
      have h2 := hwt y hay
      omega
    · intro y hy t ht hty
      rw [hSa] at ht
      have h1 := hrf _ (hSb ▸ arr_of_getD hy) y (hSb ▸ hy)
      have h2 := hwe t ht y hty
      omega
  · apply value_setString
    · intro y hy hay
      have h1 := hbf y hy
      have h2 := hwt y hay
      omega
    · intro y hy t ht hty
      rw [hSa] at ht
      have h1 := hbf y hy
      have h2 := hwe t ht y hty
      omega
  · apply value_setEntry
    intro y hy hay
    rw [hbm] at hy
    have h2 := hwm y hay
    have : st.maps.length = y := Option.some.inj hy
    omega
  · apply value_setString
    · intro y hy hby
      have h1 := hwe _ (hSa ▸ arr_of_getD hy) y (hSa ▸ hy)
      have h2 := hbf y hby
      omega
    · intro y hy t ht hty
      rw [hSb] at ht
      have h1 := hwe _ (hSa ▸ arr_of_getD hy) y (hSa ▸ hy)
      have h2 := hrf t ht y hty
      omega
  · apply value_setString
    · intro y hy hby
      have h1 := hwt y hy
      have h2 := hbf y hby
      omega
    · intro y hy t ht hty
      rw [hSb] at ht
      have h1 := hwt y hy
      have h2 := hrf t ht y hty
      omega
  · apply value_setEntry
    intro y hy hby
    rw [hbm] at hby
    have h2 := hwm y hy
    have : st.maps.length = y := Option.some.inj hby
    omega

/-- C12, in a store holding two tuples, a token array and an index: overwriting field 1 of
tuple 0 through the copy changes what the copy reads as and not the original, and the other
way round. -/
theorem copy_shares_no_storage_witness :
    ((copyRef sampleRef sampleStore).1.value (setString (copyRef sampleRef sampleStore).2
        (((readSlices (copyRef sampleRef sampleStore).2
          (copyRef sampleRef sampleStore).1.Policy)[0]?).getD nilSlice) 1 "root")).Policy
      = [["alice", "root"], ["bob", "editor"]] ∧
    sampleRef.value (setString (copyRef sampleRef sampleStore).2
        (((readSlices (copyRef sampleRef sampleStore).2
          (copyRef sampleRef sampleStore).1.Policy)[0]?).getD nilSlice) 1 "root")
      = sampleRef.value (copyRef sampleRef sampleStore).2 ∧
    (sampleRef.value (setString (copyRef sampleRef sampleStore).2
        (((readSlices (copyRef sampleRef sampleStore).2 sampleRef.Policy)[0]?).getD nilSlice)
        1 "root")).Policy
      = [["alice", "root"], ["bob", "editor"]] ∧
    (copyRef sampleRef sampleStore).1.value (setString (copyRef sampleRef sampleStore).2
        (((readSlices (copyRef sampleRef sampleStore).2 sampleRef.Policy)[0]?).getD nilSlice)
        1 "root")
      = (copyRef sampleRef sampleStore).1.value (copyRef sampleRef sampleStore).2 ∧
    ((copyRef sampleRef sampleStore).1.value (copyRef sampleRef sampleStore).2).Policy
      = [["alice", "admin"], ["bob", "editor"]] :=
  have h := copy_shares_no_storage sampleStore sampleRef (by unfold WellFormed; decide)
  ⟨by decide, h.1 0 1 "root", by decide, h.2.2.2.1 0 1 "root", by decide⟩

/-! ## The build functions in a store -/

theorem set_getD_self {α : Type} (l : List α) (a : Nat) (d : α) :
    l.set a ((l[a]?).getD d) = l := by
  apply List.ext_getElem?
  intro i
  by_cases h : a = i
  · subst h
    by_cases hl : a < l.length
    · simp [List.getElem?_set, hl]
    · simp [List.getElem?_set, hl]
      omega
  · simp [List.getElem?_set_ne h]

theorem take_append_drop_length {α : Type} (l : List α) (c : Nat) :
    l.take c ++ l.drop (l.take c).length = l := by
  rcases Nat.le_total c l.length with h | h
  · rw [List.length_take, Nat.min_eq_left h, List.take_append_drop]
  · rw [List.take_of_length_le h, List.drop_length, List.append_nil]

/-- Leaving in the reachable part what it held changes nothing. -/
theorem writeReach_same (st : Store) (r : SliceRef) : writeReach st r (reachOf st r) = st := by
  unfold writeReach reachOf
  cases r.arr with
  | none => rfl
  | some a =>
    simp only [List.take_length, List.drop_length, List.append_nil]
    have h : List.take r.off ((st.strings[a]?).getD []) ++
        List.take r.cap (List.drop r.off ((st.strings[a]?).getD [])) ++
        List.drop (r.off + (List.take r.cap (List.drop r.off ((st.strings[a]?).getD []))).length)
          ((st.strings[a]?).getD []) = (st.strings[a]?).getD [] := by
      rw [List.append_assoc, ← List.drop_drop, take_append_drop_length, List.take_append_drop]
    rw [h, set_getD_self]

theorem quiet_addLink {rm : RoleManagerRef σ} (hq : Quiet rm) (a b : String) (st : Store)
    (dom : SliceRef) (d : List String) (s : σ) :
    writeReach st dom (rm.AddLinkWrites a b d (reachOf st dom) s) = st := by
  rw [(hq a b _ _ s).1, writeReach_same]

theorem quiet_deleteLink {rm : RoleManagerRef σ} (hq : Quiet rm) (a b : String) (st : Store)
    (dom : SliceRef) (d : List String) (s : σ) :
    writeReach st dom (rm.DeleteLinkWrites a b d (reachOf st dom) s) = st := by
  rw [(hq a b _ _ s).2.1, writeReach_same]

theorem quiet_buildRelationship {rm : RoleManagerRef σ} (hq : Quiet rm) (a b : String)
    (st : Store) (dom : SliceRef) (d : List String) (s : σ) :
    writeReach st dom (rm.BuildRelationshipWrites a b d (reachOf st dom) s)
      = st := by
  rw [(hq a b _ _ s).2.2, writeReach_same]

theorem readStrings_sliceFrom (st : Store) (r : SliceRef) (n : Nat) :
    readStrings st (sliceFrom r n) = (readStrings st r).drop n := by
  unfold readStrings sliceFrom
  cases r.arr with
  | none => simp
  | some a => simp only [List.drop_take, List.drop_drop, Nat.add_comm]

theorem readStrings_sliceTo (st : Store) (r : SliceRef) (n : Nat) (h : n ≤ r.len) :
    readStrings st (sliceTo r n) = (readStrings st r).take n := by
  unfold readStrings sliceTo
  cases r.arr with
  | none => simp
  | some a => simp only [List.take_take, Nat.min_eq_left h]

/-- The arguments of a call on a slice are those of the call on the strings it reads as, with
the slice `rule[2:]`, which reads as the qualifiers, in place of the qualifiers. -/
theorem linkArgsRef_eq (st : Store) (r : SliceRef) :
    linkArgsRef st r = (linkArgs (readStrings st r)).map (fun x => (x.1, x.2.1, sliceFrom r 2)) ∧
      ∀ x, linkArgs (readStrings st r) = some x → readStrings st (sliceFrom r 2) = x.2.2 := by
  rw [readStrings_sliceFrom]
  unfold linkArgsRef linkArgs
  rcases readStrings st r with _ | ⟨a, _ | ⟨b, rest⟩⟩
  · exact ⟨rfl, fun x hx => by simp at hx⟩
  · exact ⟨rfl, fun x hx => by simp at hx⟩
  · refine ⟨rfl, fun x hx => ?_⟩
    simp only [Option.some.injEq] at hx
    subst hx
    rfl

/-- The tuple the first loop works on, truncated or not, reads as the truncated or untouched
strings of the tuple. -/
theorem readStrings_truncated (st : Store) (t : SliceRef) (count : Nat)
    (hlen : (readStrings st t).length = t.len) :
    readStrings st (if t.len > count then sliceTo t count else t)
      = if (readStrings st t).length > count then (readStrings st t).take count
        else readStrings st t := by
  rw [hlen]
  by_cases h : t.len > count
  · simp only [h, ↓reduceIte]
    exact readStrings_sliceTo st t count (by omega)
  · simp only [h, ↓reduceIte]

/-- On a capability that writes nothing the first loop leaves the memory as it is and runs as
the loop on the strings the tuples read as. -/
theorem incrementalLinkLoopRef_quiet {rm : RoleManagerRef σ} (hq : Quiet rm) (count : Nat)
    (op : PolicyOp) (rules : SliceRef) (st : Store) (idx : List Nat) (s : σ)
    (hlen : ∀ i ∈ idx, (readStrings st (((readSlices st rules)[i]?).getD nilSlice)).length
      = (((readSlices st rules)[i]?).getD nilSlice).len) :
    incrementalLinkLoopRef rm count op rules idx s st =
      ((incrementalLinkLoop rm.toRoleManager count op
          (idx.map (fun i => readStrings st (((readSlices st rules)[i]?).getD nilSlice))) s).1,
        (incrementalLinkLoop rm.toRoleManager count op
          (idx.map (fun i => readStrings st (((readSlices st rules)[i]?).getD nilSlice))) s).2,
        st) := by
  induction idx generalizing s with
  | nil => rfl
  | cons i idx ih =>
    have hi := hlen i (List.mem_cons_self _ _)
    have ih2 := fun s2 => ih s2 (fun j hj => hlen j (List.mem_cons_of_mem _ hj))
    rw [incrementalLinkLoopRef, List.map_cons, incrementalLinkLoop]
    generalize ((readSlices st rules)[i]?).getD nilSlice = t at hi ⊢
    simp only [hi]
    by_cases hlt : t.len < count
    · simp [hlt]
    · simp only [hlt, ↓reduceIte]
      have htr := readStrings_truncated st t count hi
      rw [hi] at htr
      obtain ⟨hargs, hdom⟩ := linkArgsRef_eq st (if t.len > count then sliceTo t count else t)
      rw [htr] at hargs hdom
      cases op with
      | PolicyAdd =>
        simp only [hargs]
        cases hl : linkArgs
            (if t.len > count then (readStrings st t).take count else readStrings st t) with
        | none => simp
        | some x =>
          obtain ⟨a, b, rest⟩ := x
          have hd := hdom _ hl
          simp only [Option.map_some', quiet_addLink hq, hd]
          rcases rm.AddLink a b rest s with ⟨_ | e, s1⟩
          · simp only [ih2]
          · simp
      | PolicyRemove =>
        simp only [hargs]
        cases hl : linkArgs
            (if t.len > count then (readStrings st t).take count else readStrings st t) with
        | none => simp
        | some x =>
          obtain ⟨a, b, rest⟩ := x
          have hd := hdom _ hl
          simp only [Option.map_some', quiet_deleteLink hq, hd]
          rcases rm.DeleteLink a b rest s with ⟨_ | e, s1⟩
          · simp only [ih2]
          · simp
      | other tag => simp only [ih2]


/-- On a capability that writes nothing the second loop leaves the memory as it is and runs as
the loop on the strings the tuples read as. -/
theorem relationshipLoopRef_quiet {rm : RoleManagerRef σ} (hq : Quiet rm) (rules : SliceRef)
    (st : Store) (idx : List Nat) (s : σ) :
    relationshipLoopRef rm rules idx s st =
      ((relationshipLoop rm.toRoleManager
          (idx.map (fun i => readStrings st (((readSlices st rules)[i]?).getD nilSlice))) s).1,
        (relationshipLoop rm.toRoleManager
          (idx.map (fun i => readStrings st (((readSlices st rules)[i]?).getD nilSlice))) s).2,
        st) := by
  induction idx generalizing s with
  | nil => rfl
  | cons i idx ih =>
    rw [relationshipLoopRef, List.map_cons, relationshipLoop]
    generalize ((readSlices st rules)[i]?).getD nilSlice = t
    obtain ⟨hargs, hdom⟩ := linkArgsRef_eq st t
    simp only [hargs]
    cases hl : linkArgs (readStrings st t) with
    | none => simp
    | some x =>
      obtain ⟨a, b, rest⟩ := x
      have hd := hdom _ hl
      simp only [Option.map_some', quiet_buildRelationship hq, hd]
      rcases rm.BuildRelationship a b rest s with ⟨_ | e, s1⟩
      · simp only [ih]
      · simp

theorem linkLoopRef_eq_incremental (rm : RoleManagerRef σ) (count : Nat) (rules : SliceRef)
    (idx : List Nat) (s : σ) (st : Store) :
    linkLoopRef rm count rules idx s st
      = incrementalLinkLoopRef rm count PolicyOp.PolicyAdd rules idx s st := by
  induction idx generalizing s st with
  | nil => rfl
  | cons i idx ih =>
    rw [linkLoopRef, incrementalLinkLoopRef]
    generalize ((readSlices st rules)[i]?).getD nilSlice = t
    by_cases hlt : t.len < count
    · simp [hlt]
    · simp only [hlt, ↓reduceIte]
      cases linkArgsRef st (if t.len > count then sliceTo t count else t) with
      | none => rfl
      | some x =>
        obtain ⟨a, b, dom⟩ := x
        simp only []
        rcases rm.AddLink a b (readStrings st dom) s with ⟨_ | e, s1⟩
        · simp only [ih]
        · simp

/-- A full rebuild on references is the incremental update that adds the policy slice. -/
theorem buildRoleLinksRef_eq_incremental (ast : AssertionRef σ Logger) (rm : RoleManagerRef σ)
    (s : σ) (st : Store) :
    buildRoleLinksRef ast rm s st
      = buildIncrementalRoleLinksRef ast rm PolicyOp.PolicyAdd ast.Policy s st := by
  unfold buildRoleLinksRef buildIncrementalRoleLinksRef
  simp only [linkLoopRef_eq_incremental, if_true]

theorem range_map_getD {α β : Type} (l : List α) (d : α) (f : α → β) :
    (List.range l.length).map (fun i => f ((l[i]?).getD d)) = l.map f := by
  apply List.ext_getElem?
  intro i
  by_cases h : i < l.length
  · simp [List.getElem?_map, List.getElem?_range h, List.getElem?_eq_getElem h]
  · have h2 : l.length ≤ i := by omega
    simp [List.getElem?_map, List.getElem?_eq_none h2,
      List.getElem?_eq_none (show (List.range l.length).length ≤ i by simpa using h2)]

/-- On a capability that writes nothing, and on tuples whose slices read their full length, an
update on references has the outcome, and leaves the capability in the state, of the update
on the strings the tuples read as. -/
theorem buildIncrementalRoleLinksRef_refines {rm : RoleManagerRef σ} (hq : Quiet rm)
    (ast : AssertionRef σ Logger) (op : PolicyOp) (rules : SliceRef) (s : σ) (st : Store)
    (hlen : (readSlices st rules).length = rules.len)
    (htup : ∀ t ∈ readSlices st rules, (readStrings st t).length = t.len) :
    (buildIncrementalRoleLinksRef ast rm op rules s st).1
      = (buildIncrementalRoleLinks (ast.value st) rm.toRoleManager op
          ((readSlices st rules).map (readStrings st)) s).1 ∧
    (buildIncrementalRoleLinksRef ast rm op rules s st).2.2.1
      = (buildIncrementalRoleLinks (ast.value st) rm.toRoleManager op
          ((readSlices st rules).map (readStrings st)) s).2.2 := by
  have hidx : ∀ i ∈ List.range rules.len,
      (readStrings st (((readSlices st rules)[i]?).getD nilSlice)).length
        = (((readSlices st rules)[i]?).getD nilSlice).len := by
    intro i hi
    have hi2 : i < (readSlices st rules).length := by
      rw [hlen]
      exact List.mem_range.1 hi
    rw [List.getElem?_eq_getElem hi2]
    exact htup _ (List.getElem_mem _)
  have hmap : (List.range rules.len).map
      (fun i => readStrings st (((readSlices st rules)[i]?).getD nilSlice))
      = (readSlices st rules).map (readStrings st) := by
    rw [← hlen]
    exact range_map_getD _ _ _
  have h1 := incrementalLinkLoopRef_quiet hq (countUnderscore ast.Value) op rules st
    (List.range rules.len) s hidx
  rw [hmap] at h1
  have hv : (ast.value st).Value = ast.Value := rfl
  unfold buildIncrementalRoleLinksRef buildIncrementalRoleLinks
  simp only [hv]
  by_cases hc : countUnderscore ast.Value < 2
  · simp [hc]
  · simp only [hc, ↓reduceIte, h1]
    rcases incrementalLinkLoop rm.toRoleManager (countUnderscore ast.Value) op
      ((readSlices st rules).map (readStrings st)) s with ⟨_ | o, s1⟩
    · by_cases hop : op = PolicyOp.PolicyAdd
      · simp only [hop, ↓reduceIte, relationshipLoopRef_quiet hq, hmap]
        rcases relationshipLoop rm.toRoleManager ((readSlices st rules).map (readStrings st)) s1
          with ⟨_ | o2, s2⟩ <;> exact ⟨rfl, rfl⟩
      · simp [hop]
    · exact ⟨rfl, rfl⟩

/-- The same for a full rebuild. -/
theorem buildRoleLinksRef_refines {rm : RoleManagerRef σ} (hq : Quiet rm)
    (ast : AssertionRef σ Logger) (s : σ) (st : Store)
    (hlen : (readSlices st ast.Policy).length = ast.Policy.len)
    (htup : ∀ t ∈ readSlices st ast.Policy, (readStrings st t).length = t.len) :
    (buildRoleLinksRef ast rm s st).1 = (buildRoleLinks (ast.value st) rm.toRoleManager s).1 ∧
    (buildRoleLinksRef ast rm s st).2.2.1
      = (buildRoleLinks (ast.value st) rm.toRoleManager s).2.2 := by
  rw [buildRoleLinksRef_eq_incremental, buildRoleLinks_eq_incremental]
  exact buildIncrementalRoleLinksRef_refines hq ast PolicyOp.PolicyAdd ast.Policy s st hlen htup

end Casbin
